import Mathlib

set_option maxHeartbeats 1000000

/-!
Verification of the SameGame board engine (`src/samegame/same_model.py`,
class `Same_M`).  The Python class keeps a rectangular grid of natural
numbers (`0` = empty cell), a score, and a listener list.  Every method of
the class is translated below into a pure Lean function; the mutable
`self.matrix` / `self.score` fields become explicit `Board` values that are
threaded through the operations.  Python's `random` module (used only by the
constructor) is modelled as an abstract output stream that `random.seed`
resets deterministically.
-/

namespace SameGame

/-- The state held by a `Same_M` instance: `self.cols`, `self.rows`,
`self.score` and `self.matrix` (a list of `rows` rows, each a list of
`cols` cell values; value `0` is an empty cell).  The listener list is
modelled separately (see `notify` below) because no settled claim mixes
listeners with the grid state. -/
structure Board where
  cols : Nat
  rows : Nat
  score : Nat
  matrix : List (List Nat)
deriving DecidableEq, Repr

/-- `matrix[r][c]` for in-range indices (out of range it defaults to `0`;
all board-level theorems restrict to in-range accesses, where this agrees
with Python). -/
def cellAt (m : List (List Nat)) (r c : Nat) : Nat :=
  (m.getD r []).getD c 0

/-- `matrix[r][c] = x` (in-range two-dimensional update). -/
def upd2 (m : List (List Nat)) (r c x : Nat) : List (List Nat) :=
  m.set r ((m.getD r []).set c x)

/-- `sum([row.count(1) for row in marks])` from `get_neighbours`. -/
def countOnes (m : List (List Nat)) : Nat :=
  (m.map (fun row => row.count 1)).sum

/-- `marks = [[0 for x in range(cols)] for y in range(rows)]`. -/
def zeroMatrix (rows cols : Nat) : List (List Nat) :=
  List.replicate rows (List.replicate cols 0)

/-- The local state of the flood fill in `get_neighbours`: the `matches`
0/1 matrix, the `tested` list and the work `stack`.  Python appends at the
end of `stack` and pops the last element; we model the stack with the list
head as Python's list end (same LIFO discipline).  `tested` is used only
for membership tests, so prepending is equivalent to Python's `append`. -/
structure FState where
  marks : List (List Nat)
  tested : List (Nat × Nat)
  stack : List (Nat × Nat)

/-- The local function `mark_hotspots(row, col, n_row, n_col)`: if the
neighbour `n` holds the same value as the popped cell `p`, and was not
tested before, mark it in `matches` and push it on the stack. -/
def markHotspots (mat : List (List Nat)) (s : FState) (p n : Nat × Nat) : FState :=
  if cellAt mat p.1 p.2 = cellAt mat n.1 n.2 then
    if n ∈ s.tested then s
    else { marks := upd2 s.marks n.1 n.2 1,
           tested := n :: s.tested,
           stack := n :: s.stack }
  else s

/-- The body of one iteration of the `while len(stack) > 0` loop of
`get_neighbours`, after popping `p`: test the four cardinal neighbours
(west, east, north, south — the source order) under the source's bounds
guards. -/
def floodBody (mat : List (List Nat)) (rows cols : Nat) (p : Nat × Nat) (s1 : FState) :
    FState :=
  let s2 := if 0 < p.2 then markHotspots mat s1 p (p.1, p.2 - 1) else s1
  let s3 := if p.2 < cols - 1 then markHotspots mat s2 p (p.1, p.2 + 1) else s2
  let s4 := if 0 < p.1 then markHotspots mat s3 p (p.1 - 1, p.2) else s3
  if p.1 < rows - 1 then markHotspots mat s4 p (p.1 + 1, p.2) else s4

/-- The `while len(stack) > 0` loop of `get_neighbours`.  The loop is
bounded by a fuel parameter; `get_neighbours` supplies `rows * cols`,
which theorem `floodLoop_run` below shows is always enough for in-range
seeds. -/
def floodLoop (mat : List (List Nat)) (rows cols : Nat) : Nat → FState → FState
  | 0, s => s
  | fuel + 1, s =>
    match s.stack with
    | [] => s
    | p :: rest =>
      floodLoop mat rows cols fuel (floodBody mat rows cols p { s with stack := rest })

/-- `Same_M.get_neighbours(row, col)`: `None` for an empty seed cell;
otherwise flood-fill the 4-connected equal-valued region from the seed and
return the 0/1 `matches` matrix when it marks more than one cell, else
`None`. -/
def get_neighbours (b : Board) (row col : Nat) : Option (List (List Nat)) :=
  if cellAt b.matrix row col = 0 then none
  else
    let s0 : FState :=
      { marks := upd2 (zeroMatrix b.rows b.cols) row col 1,
        tested := [(row, col)],
        stack := [(row, col)] }
    let sF := floodLoop b.matrix b.rows b.cols (b.rows * b.cols) s0
    if 1 < countOnes sF.marks then some sF.marks else none

/-- `Same_M.calc_score(marks)`: twice the number of marked cells
(the source accumulates `row.count(1)` over the rows, then doubles). -/
def calc_score (marks : List (List Nat)) : Nat :=
  (marks.foldl (fun count row => count + row.count 1) 0) * 2

/-- `Same_M.__remove_matches(marks)`: zero out every cell marked `1`.
The index loops `for r in range(rows): for c in range(cols)` are rendered
as a two-level `zipWith`; the two coincide because the `matches` matrix
returned by `get_neighbours` has exactly the board's dimensions. -/
def remove_matches (m marks : List (List Nat)) : List (List Nat) :=
  List.zipWith (fun row mrow => List.zipWith (fun x b => if b = 1 then 0 else x) row mrow)
    m marks

/-- Nonzero entries drop past zero entries below them.  This is the
`matrix[r+1][c] = matrix[r][c]; matrix[r][c] = 0` swap of `__shift_down`
restricted to one column (the loop body for a fixed `c` reads and writes
only column `c`). -/
def swapDown (v : List Nat) (r : Nat) : List Nat :=
  (v.set (r + 1) (v.getD r 0)).set r 0

/-- Weight used to bound the `__shift_down` inner loop: the sum over the
nonzero cells of the number of cells below them (each swap moves one
nonzero cell one step down, so this strictly decreases). -/
def colH : List Nat → Nat
  | [] => 0
  | x :: xs => (if 0 < x then xs.length else 0) + colH xs

/-- The `while r > -1` inner loop of `__shift_down` for one column.
`r` is the Python row pointer (the loop runs only while it is `≥ 0`;
the `r = 0` no-swap case returns, matching Python's step to `-1`).
The `r + 1 < v.length` conjunct makes the cell read total; it holds at
every state the Python loop reaches (`r` starts at `rows - 2` and is
incremented only while `r < rows - 2`). -/
def gravityLoop : Nat → List Nat → Nat → List Nat
  | 0, v, _ => v
  | fuel + 1, v, r =>
    if 0 < v.getD r 0 ∧ v.getD (r + 1) 0 = 0 ∧ r + 1 < v.length then
      gravityLoop fuel (swapDown v r) (if r < v.length - 2 then r + 1 else r)
    else if r = 0 then v
    else gravityLoop fuel v (r - 1)

/-- One column of `Same_M.__shift_down`: start the pointer at the second
to last row (`rows - 2`); with fewer than two rows the Python loop body
never runs. -/
def shiftDownCol (v : List Nat) : List Nat :=
  if 2 ≤ v.length then gravityLoop (colH v * v.length + v.length) v (v.length - 2) else v

/-- Column `c` of the matrix, top to bottom. -/
def colOf (m : List (List Nat)) (c : Nat) : List Nat :=
  m.map (fun row => row.getD c 0)

/-- Write column `c` of the matrix. -/
def setCol (m : List (List Nat)) (c : Nat) (v : List Nat) : List (List Nat) :=
  List.zipWith (fun row x => row.set c x) m v

/-- `for c in range(self.cols - 0)` of `__shift_down`: apply the inner
loop to columns `c, c+1, …, c+k-1` in order.  The Python body for a fixed
column only touches that column, so it is embedded as the column
transformation `shiftDownCol`. -/
def shiftDownFrom : List (List Nat) → Nat → Nat → List (List Nat)
  | m, _, 0 => m
  | m, c, k + 1 => shiftDownFrom (setCol m c (shiftDownCol (colOf m c))) (c + 1) k

/-- `Same_M.__shift_down()` (the `drop_cell` notifications carry no state
and are modelled separately with `notify`). -/
def shift_down (b : Board) : Board :=
  { b with matrix := shiftDownFrom b.matrix 0 b.cols }

/-- The local `isempty(col)` of `__shift_left`: no row holds a value
`> 0` in column `col`. -/
def isempty (m : List (List Nat)) (c : Nat) : Bool :=
  m.all (fun row => !decide (0 < row.getD c 0))

/-- The local `copyleft(col)` of `__shift_left`: per row, copy the value
one column to the right into `col` and zero the right cell. -/
def copyleft (m : List (List Nat)) (c : Nat) : List (List Nat) :=
  m.map (fun row => (row.set c (row.getD (c + 1) 0)).set (c + 1) 0)

/-- Is some entry of the column nonzero (the negation of `isempty`,
phrased on an extracted column)? -/
def colNonempty (v : List Nat) : Bool :=
  v.any (fun x => decide (0 < x))

/-- Columns `c, c+1, …, c+k-1` of the matrix as a list of columns. -/
def colsAux (m : List (List Nat)) : Nat → Nat → List (List Nat)
  | _, 0 => []
  | c, k + 1 => colOf m c :: colsAux m (c + 1) k

/-- All `cols` columns of the matrix, left to right. -/
def colsOf (m : List (List Nat)) (cols : Nat) : List (List Nat) :=
  colsAux m 0 cols

/-- Weight used to bound the `__shift_left` loop: the sum of the indices
of the nonempty columns (each `copyleft` moves one nonempty column one
step left). -/
def phiCols : Nat → List (List Nat) → Nat
  | _, [] => 0
  | k, v :: rest => (if colNonempty v then k else 0) + phiCols (k + 1) rest

/-- The `while col < self.cols - 1` loop of `__shift_left`: if column
`col` is empty and column `col+1` is not, copy left and restart the scan
at column `0`, otherwise advance.  Fuel-bounded; `shift_left` supplies
enough fuel (theorem `shiftLeftLoop_run`). -/
def shiftLeftLoop (cols : Nat) : Nat → List (List Nat) → Nat → List (List Nat)
  | 0, m, _ => m
  | fuel + 1, m, col =>
    if col < cols - 1 then
      if isempty m col && !isempty m (col + 1) then
        shiftLeftLoop cols fuel (copyleft m col) 0
      else
        shiftLeftLoop cols fuel m (col + 1)
    else m

/-- `Same_M.__shift_left()`. -/
def shift_left (b : Board) : Board :=
  let fuel := phiCols 0 (colsOf b.matrix b.cols) * b.cols + b.cols + 1
  { b with matrix := shiftLeftLoop b.cols fuel b.matrix 0 }

/-- `Same_M.select_blocks(row, col)`: query the match set; on a truthy
result (Python's `if m:` — `None` and the empty list are both falsy) add
the score, erase the marks, then compact down and left, in that order. -/
def select_blocks (b : Board) (row col : Nat) : Board :=
  match get_neighbours b row col with
  | none => b
  | some m =>
    if m.isEmpty then b
    else
      shift_left (shift_down
        { b with score := b.score + calc_score m,
                 matrix := remove_matches b.matrix m })

/-- A sequence of `select_blocks` commits, applied in order. -/
def runOps (moves : List (Nat × Nat)) (b : Board) : Board :=
  moves.foldl (fun acc rc => select_blocks acc rc.1 rc.2) b

/-- Well-formedness of a board: the matrix really is `rows` rows of
`cols` cells.  The constructor always produces such a grid. -/
def Rect (m : List (List Nat)) (rows cols : Nat) : Prop :=
  m.length = rows ∧ ∀ row ∈ m, row.length = cols

instance : DecidablePred (fun p : List (List Nat) × Nat × Nat => Rect p.1 p.2.1 p.2.2) :=
  fun _ => by unfold Rect; infer_instance

def WF (b : Board) : Prop :=
  Rect b.matrix b.rows b.cols

instance : DecidablePred WF := fun b => by unfold WF Rect; infer_instance

/-! ### Observer dispatch (`register_listener` / `notify`)

A listener is a callable invoked as `listener(event_name, data)`; a raising
listener is modelled as one returning `Except.error`.  `notify` is the
`for listener in self.listeners: listener(event_name, data)` loop: an
exception propagates out of the loop immediately. -/

/-- `Same_M.notify(event_name, data)`. -/
def notify {α ε : Type} (listeners : List (String → α → Except ε Unit))
    (event_name : String) (data : α) : Except ε Unit :=
  match listeners with
  | [] => .ok ()
  | l :: ls => do
    let _ ← l event_name data
    notify ls event_name data

/-- How many listeners the `notify` loop actually invokes: the loop body
runs for each listener in registration order until one raises (that one is
invoked, the later ones are not). -/
def notifyDelivered {α ε : Type} (listeners : List (String → α → Except ε Unit))
    (event_name : String) (data : α) : Nat :=
  match listeners with
  | [] => 0
  | l :: ls =>
    match l event_name data with
    | .ok _ => 1 + notifyDelivered ls event_name data
    | .error _ => 1

/-! ### Construction (`Same_M.__init__`) and the `random` module

`random` is modelled as an abstract generator state: an output stream plus
a position.  `random.seed(s)` resets the state to a function of `s` alone
(`mtStream` is a stand-in for the Mersenne Twister; every theorem below
relies only on the reset being deterministic, never on particular
values).  `random.choice(values)` consumes one stream element and raises
`IndexError` on an empty sequence. -/

structure PyRandom where
  stream : Nat → Nat
  pos : Nat

/-- Stand-in for the seeded Mersenne Twister output stream. -/
def mtStream (s : Int) : Nat → Nat :=
  fun n => s.natAbs + n

/-- `random.seed(s)`. -/
def PyRandom.seeded (s : Int) : PyRandom :=
  { stream := mtStream s, pos := 0 }

/-- Draw the next stream element. -/
def PyRandom.next (g : PyRandom) : Nat × PyRandom :=
  (g.stream g.pos, { g with pos := g.pos + 1 })

/-- `random.choice(values)`: raises `IndexError` (modelled as
`Except.error ()`) on an empty sequence, otherwise picks the element
selected by the next stream draw. -/
def pyChoice (values : List Nat) (g : PyRandom) : Except Unit (Nat × PyRandom) :=
  match values with
  | [] => .error ()
  | _ =>
    let (k, g') := g.next
    .ok (values.getD (k % values.length) 0, g')

/-- `[random.choice(values) for x in range(cols)]`. -/
def buildRow (values : List Nat) : Nat → PyRandom → Except Unit (List Nat × PyRandom)
  | 0, g => .ok ([], g)
  | c + 1, g => do
    let (x, g1) ← pyChoice values g
    let (xs, g2) ← buildRow values c g1
    .ok (x :: xs, g2)

/-- `[[random.choice(values) for x in range(cols)] for y in range(rows)]`. -/
def buildMatrix (values : List Nat) (cols : Nat) :
    Nat → PyRandom → Except Unit (List (List Nat) × PyRandom)
  | 0, g => .ok ([], g)
  | r + 1, g => do
    let (row, g1) ← buildRow values cols g
    let (rest, g2) ← buildMatrix values cols r g1
    .ok (row :: rest, g2)

/-- `Same_M.__init__(cols, rows, values, seed=None)`.  Note Python's
`if seed:` — `None` and `0` are both falsy, so only a nonzero seed
reseeds the generator.  `range(n)` of a non-positive `n` is empty, hence
`Int.toNat`. -/
def init (cols rows : Int) (values : List Nat) (seed : Option Int) (g : PyRandom) :
    Except Unit (Board × PyRandom) :=
  let g0 := match seed with
    | some s => if s ≠ 0 then PyRandom.seeded s else g
    | none => g
  do
    let (mat, g1) ← buildMatrix values cols.toNat rows.toNat g0
    .ok ({ cols := cols.toNat, rows := rows.toNat, score := 0, matrix := mat }, g1)

/-! ### `get_neighbours` under Python indexing (for the out-of-bounds claim)

Python list indexing accepts negative indices (`l[-k]` is `l[len-k]`) and
raises `IndexError` beyond that.  The variant below re-traces
`get_neighbours` with that exact semantics for every subscript, so that
out-of-range calls can be settled as the source behaves, not as a total
Lean default would. -/

/-- Resolve a Python subscript: negative indices count from the end,
anything out of `[-len, len)` is an `IndexError` (`none`). -/
def pyIdx (len : Nat) (i : Int) : Option Nat :=
  let j := if i < 0 then i + len else i
  if 0 ≤ j ∧ j < len then some j.toNat else none

/-- `l[i]` with Python semantics. -/
def pyGet (l : List Nat) (i : Int) : Option Nat :=
  (pyIdx l.length i).map (fun j => l.getD j 0)

/-- `m[r]` with Python semantics. -/
def pyGetRow (m : List (List Nat)) (i : Int) : Option (List Nat) :=
  (pyIdx m.length i).map (fun j => m.getD j [])

/-- `m[r][c]` with Python semantics. -/
def pyGet2 (m : List (List Nat)) (r c : Int) : Option Nat := do
  let row ← pyGetRow m r
  pyGet row c

/-- `l[i] = x` with Python semantics. -/
def pySet (l : List Nat) (i : Int) (x : Nat) : Option (List Nat) :=
  (pyIdx l.length i).map (fun j => l.set j x)

/-- `m[r][c] = x` with Python semantics. -/
def pySet2 (m : List (List Nat)) (r c : Int) (x : Nat) : Option (List (List Nat)) := do
  let j ← pyIdx m.length r
  let row ← pySet (m.getD j []) c x
  some (m.set j row)

/-- An `IndexError` surfaces as an exception. -/
def toExcept {α : Type} (o : Option α) : Except Unit α :=
  o.elim (.error ()) .ok

/-- Flood-fill state over Python (possibly negative) coordinates. -/
structure FStateI where
  marks : List (List Nat)
  tested : List (Int × Int)
  stack : List (Int × Int)

/-- `mark_hotspots` under Python indexing. -/
def markHotspotsPy (mat : List (List Nat)) (s : FStateI) (p n : Int × Int) :
    Except Unit FStateI := do
  let vp ← toExcept (pyGet2 mat p.1 p.2)
  let vn ← toExcept (pyGet2 mat n.1 n.2)
  if vp = vn then
    if n ∈ s.tested then .ok s
    else do
      let mk ← toExcept (pySet2 s.marks n.1 n.2 1)
      .ok { marks := mk, tested := n :: s.tested, stack := n :: s.stack }
  else .ok s

/-- The `while` loop of `get_neighbours` under Python indexing.  The fuel
is an embedding artifact: the theorems below either fail before the loop
is reached or evaluate the loop at concrete inputs on which the stack
empties well within the supplied fuel. -/
def floodLoopPy (mat : List (List Nat)) (rows cols : Nat) :
    Nat → FStateI → Except Unit FStateI
  | 0, s => .ok s
  | fuel + 1, s =>
    match s.stack with
    | [] => .ok s
    | p :: rest => do
      let s1 : FStateI := { s with stack := rest }
      let s2 ← if 0 < p.2 then markHotspotsPy mat s1 p (p.1, p.2 - 1) else .ok s1
      let s3 ← if p.2 < (cols : Int) - 1 then markHotspotsPy mat s2 p (p.1, p.2 + 1) else .ok s2
      let s4 ← if 0 < p.1 then markHotspotsPy mat s3 p (p.1 - 1, p.2) else .ok s3
      let s5 ← if p.1 < (rows : Int) - 1 then markHotspotsPy mat s4 p (p.1 + 1, p.2) else .ok s4
      floodLoopPy mat rows cols fuel s5

/-- `Same_M.get_neighbours(row, col)` under Python indexing: uncaught
`IndexError` is `Except.error ()`. -/
def get_neighboursPy (b : Board) (row col : Int) :
    Except Unit (Option (List (List Nat))) := do
  let v ← toExcept (pyGet2 b.matrix row col)
  if v = 0 then .ok none
  else do
    let m0 ← toExcept (pySet2 (zeroMatrix b.rows b.cols) row col 1)
    let s0 : FStateI := { marks := m0, tested := [(row, col)], stack := [(row, col)] }
    let sF ← floodLoopPy b.matrix b.rows b.cols (b.rows * b.cols * 4 + 4) s0
    if 1 < countOnes sF.marks then .ok (some sF.marks) else .ok none

/-! ### Specification vocabulary

The notions the claims quantify over: 4-adjacency, the connected
equal-valued region of a seed, the canonical compacted form of a column,
and the multiset of nonzero cells of a grid. -/

/-- 4-connectivity (up/down/left/right, no diagonals). -/
def adjacent (p q : Nat × Nat) : Prop :=
  (p.1 = q.1 ∧ (p.2 = q.2 + 1 ∨ q.2 = p.2 + 1)) ∨
  (p.2 = q.2 ∧ (p.1 = q.1 + 1 ∨ q.1 = p.1 + 1))

/-- One step of region growth: move to an adjacent in-range cell holding
the value `v`. -/
def MStep (mat : List (List Nat)) (rows cols v : Nat) (p q : Nat × Nat) : Prop :=
  adjacent p q ∧ q.1 < rows ∧ q.2 < cols ∧ cellAt mat q.1 q.2 = v

/-- `q` belongs to the maximal 4-connected region of value-`v` cells
containing the seed `s`. -/
def Reaches (mat : List (List Nat)) (rows cols v : Nat) (s q : Nat × Nat) : Prop :=
  Relation.ReflTransGen (MStep mat rows cols v) s q

/-- The canonical vertically-compacted form of a column: all its zeros on
top, then its nonzero cells in their original order. -/
def compactCol (v : List Nat) : List Nat :=
  List.replicate (v.count 0) 0 ++ v.filter (fun x => decide (0 < x))

/-- The multiset of nonzero cell values of a grid. -/
def nonzeros (m : List (List Nat)) : Multiset Nat :=
  ((m.map (fun row => row.filter (fun x => decide (0 < x)))).flatten : List Nat)

/-- A column is vertically compacted: some zeros on top, then only
nonzero cells below them. -/
def IsCompact (l : List Nat) : Prop :=
  ∃ n t, l = List.replicate n 0 ++ t ∧ ∀ x ∈ t, 0 < x

/-- The running invariant of the flood fill from seed `s₀` over the
value-`v` cells of `mat`: `tested` is a duplicate-free list of in-range
cells of value `v` reachable from the seed, the stack holds tested cells
without duplicates, and `marks` is exactly the 0/1 indicator matrix of
`tested` (with `countOnes` tracking its size). -/
structure FCore (mat : List (List Nat)) (rows cols v : Nat) (s₀ : Nat × Nat)
    (s : FState) : Prop where
  nodupT : s.tested.Nodup
  rangeT : ∀ p ∈ s.tested, p.1 < rows ∧ p.2 < cols
  valT : ∀ p ∈ s.tested, cellAt mat p.1 p.2 = v
  seedT : s₀ ∈ s.tested
  stackT : ∀ p ∈ s.stack, p ∈ s.tested
  nodupS : s.stack.Nodup
  reachT : ∀ p ∈ s.tested, Reaches mat rows cols v s₀ p
  mLen : s.marks.length = rows
  mRows : ∀ mr ∈ s.marks, mr.length = cols
  mOne : ∀ i j, i < rows → j < cols → (cellAt s.marks i j = 1 ↔ (i, j) ∈ s.tested)
  mBin : ∀ i j, i < rows → j < cols → cellAt s.marks i j = 0 ∨ cellAt s.marks i j = 1
  mCount : countOnes s.marks = s.tested.length

/-- Every tested cell no longer on the stack has had all its in-range
same-valued neighbours tested. -/
def Closed (mat : List (List Nat)) (rows cols v : Nat) (s : FState) : Prop :=
  ∀ p ∈ s.tested, p ∉ s.stack →
    ∀ q : Nat × Nat, q.1 < rows → q.2 < cols → cellAt mat q.1 q.2 = v →
      adjacent p q → q ∈ s.tested

/-- Like `Closed`, but the cell `p₀` currently being processed is
excused. -/
def ClosedBut (mat : List (List Nat)) (rows cols v : Nat) (p₀ : Nat × Nat)
    (s : FState) : Prop :=
  ∀ p ∈ s.tested, p ∉ s.stack → p ≠ p₀ →
    ∀ q : Nat × Nat, q.1 < rows → q.2 < cols → cellAt mat q.1 q.2 = v →
      adjacent p q → q ∈ s.tested

/-! ### Concrete inputs used by witnesses and counterexamples -/

/-- A fixed generator state. -/
def g0 : PyRandom := ⟨fun _ => 0, 0⟩

/-- A second fixed generator state with a different output stream. -/
def gOne : PyRandom := ⟨fun _ => 1, 0⟩

/-- Two registered observers; the first raises on every event. -/
def badListeners : List (String → Unit → Except Unit Unit) :=
  [fun _ _ => .error (), fun _ _ => .ok ()]

/-- A 2×2 board whose left column holds two matching `5`s. -/
def bTwin : Board := ⟨2, 2, 0, [[5, 9], [5, 9]]⟩

/-!
## Theorems

First the elementary bookkeeping lemmas, then one theorem per claim
(with a witness where the statement carries hypotheses, and a
counterexample where the claim fails on the code).
-/

theorem calc_score_eq (m : List (List Nat)) : calc_score m = 2 * countOnes m := by
  have h : ∀ (l : List (List Nat)) (a : Nat),
      l.foldl (fun acc row => acc + row.count 1) a = a + countOnes l := by
    intro l
    induction l with
    | nil => intro a; simp [countOnes]
    | cons row t ih =>
      intro a
      rw [List.foldl_cons, ih]
      simp [countOnes]
      omega
  unfold calc_score
  rw [h]
  omega

theorem countOnes_cons (row : List Nat) (t : List (List Nat)) :
    countOnes (row :: t) = row.count 1 + countOnes t := by
  simp [countOnes]

theorem gn_some_count (b : Board) (row col : Nat) (m : List (List Nat))
    (h : get_neighbours b row col = some m) : 1 < countOnes m := by
  unfold get_neighbours at h
  by_cases h0 : cellAt b.matrix row col = 0
  · rw [if_pos h0] at h
    exact absurd h (by simp)
  · rw [if_neg h0] at h
    simp only [] at h
    split at h
    · cases h
      assumption
    · exact absurd h (by simp)

theorem gn_some_ne_nil (b : Board) (row col : Nat) (m : List (List Nat))
    (h : get_neighbours b row col = some m) : m.isEmpty = false := by
  have hc := gn_some_count b row col m h
  cases m with
  | nil => simp [countOnes] at hc
  | cons _ _ => rfl

theorem shift_down_score (b : Board) : (shift_down b).score = b.score := rfl

theorem shift_left_score (b : Board) : (shift_left b).score = b.score := rfl

theorem shift_down_dims (b : Board) :
    (shift_down b).rows = b.rows ∧ (shift_down b).cols = b.cols := ⟨rfl, rfl⟩

theorem shift_left_dims (b : Board) :
    (shift_left b).rows = b.rows ∧ (shift_left b).cols = b.cols := ⟨rfl, rfl⟩

theorem select_blocks_of_some (b : Board) (row col : Nat) (m : List (List Nat))
    (h : get_neighbours b row col = some m) :
    select_blocks b row col =
      shift_left (shift_down
        { b with score := b.score + calc_score m,
                 matrix := remove_matches b.matrix m }) := by
  unfold select_blocks
  rw [h]
  simp only [gn_some_ne_nil b row col m h, Bool.false_eq_true, if_false]

theorem select_blocks_score_le (b : Board) (row col : Nat) :
    b.score ≤ (select_blocks b row col).score := by
  unfold select_blocks
  cases hg : get_neighbours b row col with
  | none => exact Nat.le_refl _
  | some m =>
    cases he : m.isEmpty with
    | true => simp [he]
    | false =>
      simp only [he, Bool.false_eq_true, if_false]
      rw [shift_left_score, shift_down_score]
      exact Nat.le_add_right _ _

/-- **C2.** For every board and every sequence of commits, the score is
non-decreasing; a commit whose match query returns a set `m` adds exactly
twice the number of marked cells of `m` to the score, and a commit whose
match query returns `None` changes nothing at all. -/
theorem score_accounting (b : Board) (row col : Nat) :
    (∀ m, get_neighbours b row col = some m →
      (select_blocks b row col).score = b.score + 2 * countOnes m) ∧
    (get_neighbours b row col = none → select_blocks b row col = b) ∧
    (∀ moves : List (Nat × Nat), b.score ≤ (runOps moves b).score) := by
  refine ⟨?_, ?_, ?_⟩
  · intro m hm
    rw [select_blocks_of_some b row col m hm, shift_left_score, shift_down_score]
    simp [calc_score_eq]
  · intro hn
    unfold select_blocks
    rw [hn]
  · have step : ∀ (moves : List (Nat × Nat)) (a : Board),
        a.score ≤ (runOps moves a).score := by
      intro moves
      induction moves with
      | nil => intro a; exact Nat.le_refl _
      | cons mv t ih =>
        intro a
        exact Nat.le_trans (select_blocks_score_le a mv.1 mv.2) (ih _)
    intro moves
    exact step moves b

/-- Witness for `score_accounting` at a concrete board on which the match
query succeeds with a two-cell set, adding `4` to the score. -/
theorem score_accounting_witness :
    get_neighbours bTwin 0 0 = some [[1, 0], [1, 0]] ∧
    (select_blocks bTwin 0 0).score = bTwin.score + 2 * countOnes [[1, 0], [1, 0]] := by
  have h : get_neighbours bTwin 0 0 = some [[1, 0], [1, 0]] := by decide
  exact ⟨h, (score_accounting bTwin 0 0).1 [[1, 0], [1, 0]] h⟩

/-- **C5.** Selecting an in-range empty cell (value `0`) is a no-op: the
preview returns `None` and the commit leaves the whole board — grid,
dimensions and score — untouched.  (The preview is a pure function of the
board in this embedding, exactly because the source method only writes
its local `matches`/`tested`/`stack` variables: it never mutates the
board or the score by construction.) -/
theorem select_zero_noop (b : Board) (row col : Nat)
    (_hr : row < b.rows) (_hc : col < b.cols)
    (h0 : cellAt b.matrix row col = 0) :
    get_neighbours b row col = none ∧ select_blocks b row col = b := by
  have hg : get_neighbours b row col = none := by
    unfold get_neighbours
    rw [if_pos h0]
  refine ⟨hg, ?_⟩
  unfold select_blocks
  rw [hg]

/-- Witness for `select_zero_noop` on a board with an empty corner. -/
theorem select_zero_noop_witness :
    (0 < (⟨2, 2, 0, [[0, 9], [5, 9]]⟩ : Board).rows) ∧
    get_neighbours ⟨2, 2, 0, [[0, 9], [5, 9]]⟩ 0 0 = none ∧
    select_blocks ⟨2, 2, 0, [[0, 9], [5, 9]]⟩ 0 0 = ⟨2, 2, 0, [[0, 9], [5, 9]]⟩ := by
  have h := select_zero_noop ⟨2, 2, 0, [[0, 9], [5, 9]]⟩ 0 0
    (by decide) (by decide) (by decide)
  exact ⟨by decide, h.1, h.2⟩

/-- **C6 (amended).** A preview whose index is out of range even for
Python's indexing convention (`row ≥ rows` or `row < -rows`, and likewise
for `col`) raises `IndexError` at the very first subscript — surfaced
here as `Except.error` — and mutates nothing.  (Negative indices within
`[-rows, -1]`, which the claim also calls out of range, are *accepted* by
the code: Python interprets them from the end of the list; see the
counterexample.) -/
theorem pyIdx_none (len : Nat) (i : Int) (h : (len : Int) ≤ i ∨ i < -(len : Int)) :
    pyIdx len i = none := by
  simp only [pyIdx]
  rw [if_neg]
  intro hcon
  rcases lt_or_le i 0 with hi | hi
  · rw [if_pos hi] at hcon
    omega
  · rw [if_neg (not_lt.mpr hi)] at hcon
    omega

theorem pyIdx_lt (len : Nat) (i : Int) (j : Nat) (h : pyIdx len i = some j) :
    j < len := by
  simp only [pyIdx] at h
  rcases lt_or_le i 0 with hi | hi
  · simp only [if_pos hi] at h
    split at h
    · cases h
      omega
    · cases h
  · simp only [if_neg (not_lt.mpr hi)] at h
    split at h
    · cases h
      omega
    · cases h

theorem get_neighboursPy_out_of_range (b : Board) (row col : Int) (hw : WF b)
    (h : (b.rows : Int) ≤ row ∨ row < -(b.rows : Int) ∨
         (b.cols : Int) ≤ col ∨ col < -(b.cols : Int)) :
    get_neighboursPy b row col = .error () := by
  obtain ⟨hlen, hrows⟩ := hw
  have hnone : pyGet2 b.matrix row col = none := by
    unfold pyGet2 pyGetRow
    rcases h with h | h | h | h
    · rw [hlen, pyIdx_none b.rows row (by omega)]
      rfl
    · rw [hlen, pyIdx_none b.rows row (by omega)]
      rfl
    all_goals
      cases hidx : pyIdx b.matrix.length row with
      | none => simp [hidx]
      | some j =>
        have hjlen : j < b.matrix.length := pyIdx_lt _ _ _ hidx
        have hmem : b.matrix.getD j [] ∈ b.matrix := by
          rw [List.getD_eq_getElem b.matrix [] hjlen]
          exact List.getElem_mem hjlen
        have hrowlen : (b.matrix.getD j []).length = b.cols := hrows _ hmem
        have hpy : pyIdx (b.matrix.getD j []).length col = none := by
          rw [hrowlen]
          exact pyIdx_none b.cols col (by omega)
        rw [List.getD_eq_getElem?_getD] at hpy
        simp [hidx, pyGet, hpy]
  unfold get_neighboursPy
  rw [hnone]
  rfl

/-- Witness for `get_neighboursPy_out_of_range`: a row index past the
grid fails with an `IndexError`-style error. -/
theorem get_neighboursPy_out_of_range_witness :
    WF bTwin ∧ get_neighboursPy bTwin 5 0 = .error () := by
  refine ⟨by decide, get_neighboursPy_out_of_range bTwin 5 0 (by decide) ?_⟩
  left
  decide

/-- **C6, counterexample.** `get_neighbours(-1, 0)` on a 2×2 board is out
of range by the claim's reading (`row < 0`), yet the call is *not*
rejected: Python resolves index `-1` to the last row and the preview
returns a successful match set. -/
theorem get_neighboursPy_negative_index_counterexample :
    get_neighboursPy bTwin (-1) 0 = .ok (some [[1, 0], [1, 0]]) ∧
    (get_neighboursPy bTwin (-1) 0).isOk = true := ⟨rfl, rfl⟩

/-- **C7 (amended).** `notify` dispatches synchronously, in registration
order; when every listener returns normally, each one is invoked exactly
once.  But a listener that raises *aborts* the loop: the exception
propagates and the listeners registered after it are never invoked. -/
theorem notify_error_aborts (pre post : List (String → Unit → Except Unit Unit))
    (bad : String → Unit → Except Unit Unit) (ev : String)
    (hpre : ∀ l ∈ pre, l ev () = .ok ())
    (hbad : bad ev () = .error ()) :
    notifyDelivered (pre ++ bad :: post) ev () = pre.length + 1 ∧
    notify (pre ++ bad :: post) ev () = .error () ∧
    (∀ ls : List (String → Unit → Except Unit Unit), (∀ l ∈ ls, l ev () = .ok ()) →
      notifyDelivered ls ev () = ls.length ∧ notify ls ev () = .ok ()) := by
  have allok : ∀ ls : List (String → Unit → Except Unit Unit),
      (∀ l ∈ ls, l ev () = .ok ()) →
      notifyDelivered ls ev () = ls.length ∧ notify ls ev () = .ok () := by
    intro ls
    induction ls with
    | nil => intro _; exact ⟨rfl, rfl⟩
    | cons l t ih =>
      intro hok
      have hl : l ev () = .ok () := hok l (List.mem_cons_self l t)
      have ht := ih (fun x hx => hok x (List.mem_cons_of_mem l hx))
      constructor
      · unfold notifyDelivered
        rw [hl, ht.1]
        simp
        omega
      · unfold notify
        rw [hl]
        simpa using ht.2
  refine ⟨?_, ?_, allok⟩
  · induction pre with
    | nil =>
      rw [List.nil_append]
      unfold notifyDelivered
      rw [hbad]
      simp
    | cons l t ih =>
      have hl : l ev () = .ok () := hpre l (List.mem_cons_self l t)
      have ht := ih (fun x hx => hpre x (List.mem_cons_of_mem l hx))
      rw [List.cons_append]
      unfold notifyDelivered
      rw [hl, ht]
      simp
      omega
  · induction pre with
    | nil =>
      rw [List.nil_append]
      unfold notify
      rw [hbad]
      rfl
    | cons l t ih =>
      have hl : l ev () = .ok () := hpre l (List.mem_cons_self l t)
      have ht := ih (fun x hx => hpre x (List.mem_cons_of_mem l hx))
      rw [List.cons_append]
      unfold notify
      rw [hl]
      simpa using ht

/-- Witness for `notify_error_aborts`: one well-behaved observer before a
raising one; the raiser is the second and last to be invoked. -/
theorem notify_error_aborts_witness :
    notifyDelivered ([fun _ _ => Except.ok ()] ++ (fun _ _ => Except.error ()) ::
      ([] : List (String → Unit → Except Unit Unit))) "drop_cell" () = 2 ∧
    notify ([fun _ _ => Except.ok ()] ++ (fun _ _ => Except.error ()) ::
      ([] : List (String → Unit → Except Unit Unit))) "drop_cell" () = .error () := by
  have h := notify_error_aborts [fun _ _ => Except.ok ()] []
    (fun _ _ => Except.error ()) "drop_cell"
    (by intro l hl; simp at hl; rw [hl]) rfl
  exact ⟨h.1, h.2.1⟩

/-- **C7, counterexample.** Two observers are registered and the first
raises: the notify loop invokes only one of the two, so the raising
observer *does* prevent delivery to the observer after it. -/
theorem notify_error_counterexample :
    notifyDelivered badListeners "drop_cell" () = 1 ∧ badListeners.length = 2 := ⟨rfl, rfl⟩

theorem exceptBind_ok {ε α β : Type} (a : α) (f : α → Except ε β) :
    (Except.ok a >>= f) = f a := rfl

theorem exceptBind_error {ε α β : Type} (e : ε) (f : α → Except ε β) :
    ((Except.error e : Except ε α) >>= f) = Except.error e := rfl

theorem buildRow_error_iff (values : List Nat) :
    ∀ (c : Nat) (g : PyRandom),
      buildRow values c g = .error () ↔ (values = [] ∧ 0 < c) := by
  intro c
  induction c with
  | zero =>
    intro g
    constructor
    · intro h
      exact absurd h (by simp [buildRow])
    · rintro ⟨-, h⟩
      omega
  | succ n ih =>
    intro g
    cases values with
    | nil =>
      constructor
      · intro _
        exact ⟨rfl, Nat.succ_pos n⟩
      · intro _
        rfl
    | cons a t =>
      constructor
      · intro h
        have hc : pyChoice (a :: t) g =
            .ok ((a :: t).getD (g.next.1 % (a :: t).length) 0, g.next.2) := rfl
        rw [buildRow, hc, exceptBind_ok] at h
        dsimp only at h
        cases hr : buildRow (a :: t) n g.next.2 with
        | error e =>
          cases e
          have := (ih g.next.2).mp hr
          exact absurd this.1 (by simp)
        | ok p =>
          obtain ⟨xs, g2⟩ := p
          rw [hr, exceptBind_ok] at h
          exact absurd h (by simp)
      · rintro ⟨h, -⟩
        exact List.noConfusion h

theorem buildMatrix_error_iff (values : List Nat) (cols : Nat) :
    ∀ (r : Nat) (g : PyRandom),
      buildMatrix values cols r g = .error () ↔ (values = [] ∧ 0 < cols ∧ 0 < r) := by
  intro r
  induction r with
  | zero =>
    intro g
    constructor
    · intro h
      exact absurd h (by simp [buildMatrix])
    · rintro ⟨-, -, h⟩
      omega
  | succ n ih =>
    intro g
    cases hr : buildRow values cols g with
    | error e =>
      cases e
      have hre := (buildRow_error_iff values cols g).mp hr
      constructor
      · intro _
        exact ⟨hre.1, hre.2, Nat.succ_pos n⟩
      · intro _
        rw [buildMatrix, hr, exceptBind_error]
    | ok p =>
      obtain ⟨prow, pg⟩ := p
      rw [buildMatrix, hr, exceptBind_ok]
      dsimp only
      cases hm : buildMatrix values cols n pg with
      | error e =>
        cases e
        have hme := (ih pg).mp hm
        constructor
        · intro _
          exact ⟨hme.1, hme.2.1, Nat.succ_pos n⟩
        · intro _
          rfl
      | ok q =>
        obtain ⟨qrows, qg⟩ := q
        rw [exceptBind_ok]
        constructor
        · intro h
          exact absurd h (by simp)
        · rintro ⟨h1, h2, -⟩
          have : buildRow values cols g = .error () :=
            (buildRow_error_iff values cols g).mpr ⟨h1, h2⟩
          rw [hr] at this
          exact absurd this (by simp)

/-- **C8 (amended).** Construction raises (an uncaught `IndexError` from
`random.choice` on the empty palette) exactly when the palette is empty
*and* both dimensions are positive.  Non-positive dimensions alone do
*not* fail construction: `range(n)` of a non-positive `n` is empty, so a
degenerate board with an empty grid is produced. -/
theorem init_fail_iff (cols rows : Int) (values : List Nat) (seed : Option Int)
    (g : PyRandom) :
    init cols rows values seed g = .error () ↔
      (values = [] ∧ 0 < cols ∧ 0 < rows) := by
  unfold init
  dsimp only
  set gg := (match seed with
             | some s => if s ≠ 0 then PyRandom.seeded s else g
             | none => g) with hgg
  cases hm : buildMatrix values cols.toNat rows.toNat gg with
  | error e =>
    cases e
    have := (buildMatrix_error_iff values cols.toNat rows.toNat _).mp hm
    constructor
    · intro _
      exact ⟨this.1, by omega, by omega⟩
    · intro _
      rfl
  | ok p =>
    obtain ⟨mat, g1⟩ := p
    rw [exceptBind_ok]
    constructor
    · intro h
      exact absurd h (by simp)
    · rintro ⟨h1, h2, h3⟩
      have herr : buildMatrix values cols.toNat rows.toNat gg = .error () :=
        (buildMatrix_error_iff values cols.toNat rows.toNat gg).mpr
          ⟨h1, by omega, by omega⟩
      rw [hm] at herr
      exact absurd herr (by simp)

/-- Witness for `init_fail_iff`: an empty palette on a positive 2×2 grid
fails construction. -/
theorem init_fail_iff_witness :
    init 2 2 [] none g0 = .error () ↔
      (([] : List Nat) = [] ∧ (0 : Int) < 2 ∧ (0 : Int) < 2) :=
  init_fail_iff 2 2 [] none g0

/-- **C8, counterexample.** `cols = 0` is a non-positive dimension, yet
construction succeeds and returns a (degenerate) board object rather
than failing. -/
theorem init_nonpositive_dims_counterexample :
    ((0 : Int) ≤ 0) ∧ init 0 1 [7] none g0 = .ok (⟨0, 1, 0, [[]]⟩, g0) :=
  ⟨le_refl _, rfl⟩

/-- **C9 (amended).** Two boards constructed with identical
`(cols, rows, values, seed)` where the seed is *truthy* (supplied and
nonzero — Python's `if seed:`) are identical whatever the ambient
generator state, and then every identical sequence of preview/commit
calls yields identical boards, scores and preview results.  (With
`seed = None` or `seed = 0` the generator is not reseeded and the grids
depend on the ambient generator state; see the counterexample.) -/
theorem init_deterministic (cols rows : Int) (values : List Nat) (s : Int)
    (g1 g2 : PyRandom) (hs : s ≠ 0) :
    init cols rows values (some s) g1 = init cols rows values (some s) g2 ∧
    (∀ b1 r1 b2 r2, init cols rows values (some s) g1 = .ok (b1, r1) →
      init cols rows values (some s) g2 = .ok (b2, r2) →
      b1 = b2 ∧ ∀ moves : List (Nat × Nat),
        runOps moves b1 = runOps moves b2 ∧
        (runOps moves b1).score = (runOps moves b2).score ∧
        ∀ r c : Nat,
          get_neighbours (runOps moves b1) r c =
            get_neighbours (runOps moves b2) r c) := by
  have key : init cols rows values (some s) g1 = init cols rows values (some s) g2 := by
    unfold init
    dsimp only
    rw [if_pos hs, if_pos hs]
  refine ⟨key, ?_⟩
  intro b1 r1 b2 r2 h1 h2
  rw [key, h2] at h1
  injection h1 with hp
  injection hp with hb hr
  subst hb
  subst hr
  exact ⟨rfl, fun _ => ⟨rfl, rfl, fun _ _ => rfl⟩⟩

/-- Witness for `init_deterministic`: seed `1` is truthy, so two
different ambient generator states give the same construction result. -/
theorem init_deterministic_witness :
    (1 : Int) ≠ 0 ∧ init 1 1 [7] (some 1) g0 = init 1 1 [7] (some 1) gOne :=
  ⟨by decide, (init_deterministic 1 1 [7] 1 g0 gOne (by decide)).1⟩

/-- **C9, counterexample.** A *supplied* seed of `0` is falsy in Python,
so `random.seed` is never called: two constructions with the identical
arguments `(2, 2, [7, 8], seed=0)` from different generator states
produce different grids. -/
theorem init_seed_zero_counterexample :
    (init 2 2 [7, 8] (some 0) g0).map (fun p => p.1.matrix) = .ok [[7, 7], [7, 7]] ∧
    (init 2 2 [7, 8] (some 0) gOne).map (fun p => p.1.matrix) = .ok [[8, 8], [8, 8]] ∧
    ([[7, 7], [7, 7]] : List (List Nat)) ≠ [[8, 8], [8, 8]] :=
  ⟨rfl, rfl, by decide⟩

/-! ### List index bookkeeping for the compaction proofs -/

theorem getD_set_self {α : Type} (l : List α) (i : Nat) (x d : α) (h : i < l.length) :
    (l.set i x).getD i d = x := by
  induction l generalizing i with
  | nil => simp at h
  | cons a t ih =>
    cases i with
    | zero => rfl
    | succ n =>
      rw [List.set_cons_succ, List.getD_cons_succ]
      exact ih n (by simpa using h)

theorem getD_set_ne {α : Type} (l : List α) (i j : Nat) (x d : α) (h : i ≠ j) :
    (l.set i x).getD j d = l.getD j d := by
  induction l generalizing i j with
  | nil => rfl
  | cons a t ih =>
    cases i with
    | zero =>
      cases j with
      | zero => exact absurd rfl h
      | succ m => rfl
    | succ n =>
      cases j with
      | zero => rfl
      | succ m =>
        rw [List.set_cons_succ, List.getD_cons_succ, List.getD_cons_succ]
        exact ih n m (by omega)

theorem drop_eq_getD_cons (v : List Nat) (i : Nat) (h : i < v.length) :
    v.drop i = v.getD i 0 :: v.drop (i + 1) := by
  rw [List.drop_eq_getElem_cons h, List.getD_eq_getElem v 0 h]

theorem getD_drop_zero (v : List Nat) (n : Nat) (h : n < v.length) :
    (v.drop n).getD 0 0 = v.getD n 0 := by
  rw [drop_eq_getD_cons v n h]
  rfl

theorem take_cons_cons_drop (v : List Nat) (r : Nat) (h : r + 1 < v.length) :
    v = v.take r ++ v.getD r 0 :: v.getD (r + 1) 0 :: v.drop (r + 2) := by
  conv_lhs => rw [← List.take_append_drop r v]
  rw [drop_eq_getD_cons v r (by omega), drop_eq_getD_cons v (r + 1) h]

/-! ### The vertical collapse of one column -/

theorem swapDown_length (v : List Nat) (r : Nat) : (swapDown v r).length = v.length := by
  simp [swapDown]

theorem swapDown_eq (r : Nat) : ∀ (v : List Nat), r + 1 < v.length →
    swapDown v r = v.take r ++ 0 :: v.getD r 0 :: v.drop (r + 2) := by
  induction r with
  | zero =>
    intro v h
    match v, h with
    | a :: b :: u, _ => rfl
  | succ n ih =>
    intro v h
    match v, h with
    | a :: t, h =>
      have h' : n + 1 < t.length := by
        simp only [List.length_cons] at h
        omega
      have hstep : swapDown (a :: t) (n + 1) = a :: swapDown t n := rfl
      rw [hstep, ih t h']
      rfl

theorem swapDown_drop_ge (v : List Nat) (r : Nat) :
    (swapDown v r).drop (r + 2) = v.drop (r + 2) := by
  unfold swapDown
  rw [List.drop_set, if_pos (by omega), List.drop_set, if_pos (by omega)]

theorem swapDown_getD_succ (v : List Nat) (r : Nat) (h : r + 1 < v.length) :
    (swapDown v r).getD (r + 1) 0 = v.getD r 0 := by
  unfold swapDown
  rw [getD_set_ne _ _ _ _ _ (by omega), getD_set_self _ _ _ _ (by simpa using h)]

theorem swapDown_drop_succ (v : List Nat) (r : Nat) (h : r + 1 < v.length) :
    (swapDown v r).drop (r + 1) = v.getD r 0 :: v.drop (r + 2) := by
  rw [drop_eq_getD_cons (swapDown v r) (r + 1) (by rw [swapDown_length]; omega),
    swapDown_getD_succ v r h, swapDown_drop_ge]

theorem colH_cons (y : Nat) (l : List Nat) :
    colH (y :: l) = (if 0 < y then l.length else 0) + colH l := rfl

theorem colH_append (l1 l2 : List Nat) :
    colH (l1 ++ l2) = colH l1 + l1.countP (fun x => decide (0 < x)) * l2.length + colH l2 := by
  induction l1 with
  | nil => simp [colH]
  | cons x t ih =>
    rw [List.cons_append, colH_cons, colH_cons, ih, List.countP_cons, List.length_append]
    by_cases hp : 0 < x
    · simp [hp]
      try ring
    · simp [hp]
      try ring

theorem count_add_filterPos_length (v : List Nat) :
    v.count 0 + (v.filter (fun x => decide (0 < x))).length = v.length := by
  induction v with
  | nil => rfl
  | cons x t ih =>
    rw [List.count_cons, List.filter_cons]
    by_cases hp : 0 < x
    · have hx0 : ¬(x = 0) := by omega
      simp [hp, hx0]
      omega
    · have hx0 : x = 0 := by omega
      subst hx0
      simp
      omega

theorem compactCol_length (v : List Nat) : (compactCol v).length = v.length := by
  unfold compactCol
  rw [List.length_append, List.length_replicate]
  exact count_add_filterPos_length v

theorem isCompact_of_short (l : List Nat) (h : l.length ≤ 1) : IsCompact l := by
  cases l with
  | nil => exact ⟨0, [], rfl, by simp⟩
  | cons a t =>
    cases t with
    | nil =>
      rcases Nat.eq_zero_or_pos a with h0 | hp
      · exact ⟨1, [], by simp [h0], by simp⟩
      · exact ⟨0, [a], rfl, by simpa using hp⟩
    | cons b u => simp at h

theorem isCompact_cons_zero (t : List Nat) (h : IsCompact t) : IsCompact (0 :: t) := by
  obtain ⟨n, s, rfl, hs⟩ := h
  exact ⟨n + 1, s, by simp [List.replicate_succ], hs⟩

theorem isCompact_cons_pos (x : Nat) (t : List Nat) (h : ∀ y ∈ t, 0 < y) :
    IsCompact (x :: t) := by
  rcases Nat.eq_zero_or_pos x with h0 | hp
  · subst h0
    exact isCompact_cons_zero t ⟨0, t, by simp, h⟩
  · refine ⟨0, x :: t, by simp, ?_⟩
    intro y hy
    rcases List.mem_cons.mp hy with h1 | h2
    · exact h1 ▸ hp
    · exact h y h2

theorem isCompact_tail (l : List Nat) (h : IsCompact l) : IsCompact l.tail := by
  obtain ⟨n, t, rfl, ht⟩ := h
  cases n with
  | zero =>
    refine ⟨0, t.tail, by simp, fun x hx => ht x (List.mem_of_mem_tail hx)⟩
  | succ m =>
    exact ⟨m, t, by simp [List.replicate_succ], ht⟩

theorem isCompact_head_pos (l : List Nat) (h : IsCompact l) (hp : 0 < l.getD 0 0) :
    ∀ x ∈ l, 0 < x := by
  obtain ⟨n, t, rfl, ht⟩ := h
  cases n with
  | zero =>
    intro x hx
    exact ht x (by simpa using hx)
  | succ m =>
    exfalso
    rw [List.replicate_succ, List.cons_append] at hp
    simp at hp

theorem isCompact_eq (l : List Nat) (h : IsCompact l) : l = compactCol l := by
  obtain ⟨n, t, rfl, ht⟩ := h
  unfold compactCol
  have hcount : (List.replicate n (0 : Nat) ++ t).count 0 = n := by
    have h0t : t.count 0 = 0 :=
      List.count_eq_zero.mpr (fun hmem => absurd (ht 0 hmem) (by omega))
    rw [List.count_append, List.count_replicate_self, h0t]
    omega
  have hfilt : (List.replicate n (0 : Nat) ++ t).filter (fun x => decide (0 < x)) = t := by
    rw [List.filter_append]
    have h1 : (List.replicate n (0 : Nat)).filter (fun x => decide (0 < x)) = [] := by
      apply List.filter_eq_nil_iff.mpr
      intro a ha
      rw [List.eq_of_mem_replicate ha]
      simp
    have h2 : t.filter (fun x => decide (0 < x)) = t :=
      List.filter_eq_self.mpr (fun a ha => by simpa using ht a ha)
    rw [h1, h2, List.nil_append]
  rw [hcount, hfilt]

theorem swapDown_count (v : List Nat) (r : Nat) (h : r + 1 < v.length)
    (hx : 0 < v.getD r 0) (hz : v.getD (r + 1) 0 = 0) :
    (swapDown v r).count 0 = v.count 0 := by
  have ha : ¬(v.getD r 0 = 0) := by omega
  rw [List.getD_eq_getElem?_getD] at ha
  rw [swapDown_eq r v h]
  conv_rhs => rw [take_cons_cons_drop v r h]
  rw [hz]
  simp [List.count_append, List.count_cons, ha]
  try omega

theorem swapDown_filter (v : List Nat) (r : Nat) (h : r + 1 < v.length)
    (_hx : 0 < v.getD r 0) (hz : v.getD (r + 1) 0 = 0) :
    (swapDown v r).filter (fun x => decide (0 < x)) =
      v.filter (fun x => decide (0 < x)) := by
  rw [swapDown_eq r v h]
  conv_rhs => rw [take_cons_cons_drop v r h]
  rw [hz]
  simp [List.filter_append, List.filter_cons]

theorem swapDown_compactCol (v : List Nat) (r : Nat) (h : r + 1 < v.length)
    (hx : 0 < v.getD r 0) (hz : v.getD (r + 1) 0 = 0) :
    compactCol (swapDown v r) = compactCol v := by
  unfold compactCol
  rw [swapDown_count v r h hx hz, swapDown_filter v r h hx hz]

theorem swapDown_colH (v : List Nat) (r : Nat) (h : r + 1 < v.length)
    (hx : 0 < v.getD r 0) (hz : v.getD (r + 1) 0 = 0) :
    colH v = colH (swapDown v r) + 1 := by
  have hx' : 0 < v[r]?.getD 0 := by
    rw [← List.getD_eq_getElem?_getD]
    exact hx
  rw [swapDown_eq r v h]
  conv_lhs => rw [take_cons_cons_drop v r h]
  rw [hz, colH_append, colH_append]
  simp [colH, hx']
  ring

/-- The inner `while` loop of `__shift_down` ends with the column in its
canonical compacted form, provided the part strictly below the pointer is
already compacted and the fuel dominates the loop measure. -/
theorem gravityLoop_eq : ∀ (fuel : Nat) (v : List Nat) (r : Nat),
    r + 1 < v.length →
    IsCompact (v.drop (r + 1)) →
    colH v * v.length + (r + 1) ≤ fuel →
    gravityLoop fuel v r = compactCol v := by
  intro fuel
  induction fuel with
  | zero =>
    intro v r _ _ hfuel
    omega
  | succ n ih =>
    intro v r hr hcomp hfuel
    rw [gravityLoop]
    split
    case isTrue hcond =>
      obtain ⟨hx, hz, hlen⟩ := hcond
      have hL : 2 ≤ v.length := by omega
      have hcolH := swapDown_colH v r hlen hx hz
      have hmul : colH v * v.length = colH (swapDown v r) * v.length + v.length := by
        rw [hcolH, Nat.succ_mul]
      by_cases hrlt : r < v.length - 2
      · rw [if_pos hrlt]
        rw [ih (swapDown v r) (r + 1)
            (by rw [swapDown_length]; omega)
            (by rw [swapDown_drop_ge]
                have ht : v.drop (r + 2) = (v.drop (r + 1)).tail := by
                  rw [List.tail_drop]
                rw [ht]
                exact isCompact_tail _ hcomp)
            (by rw [swapDown_length]
                rw [hmul] at hfuel
                omega)]
        exact swapDown_compactCol v r hlen hx hz
      · rw [if_neg hrlt]
        have hr2 : r + 2 = v.length := by omega
        rw [ih (swapDown v r) r
            (by rw [swapDown_length]; omega)
            (by rw [swapDown_drop_succ v r hlen]
                have hB : v.drop (r + 2) = [] := by
                  rw [hr2]
                  exact List.drop_length v
                rw [hB]
                exact isCompact_of_short _ (by simp))
            (by rw [swapDown_length]
                rw [hmul] at hfuel
                omega)]
        exact swapDown_compactCol v r hlen hx hz
    case isFalse hcond =>
      have hd : v.getD r 0 = 0 ∨ 0 < v.getD (r + 1) 0 := by
        by_contra hcon
        push_neg at hcon
        exact hcond ⟨by omega, by omega, hr⟩
      split
      case isTrue hr0 =>
        subst hr0
        apply isCompact_eq
        have hv0 : v = v.getD 0 0 :: v.drop 1 := by
          have h1 : v.drop 0 = v.getD 0 0 :: v.drop 1 := drop_eq_getD_cons v 0 (by omega)
          rw [List.drop_zero] at h1
          exact h1
      -- `v.drop (0+1)` is compacted; extend it by the head
        rcases hd with h0 | hpos
        · rw [hv0, h0]
          exact isCompact_cons_zero _ hcomp
        · have hall : ∀ x ∈ v.drop 1, 0 < x :=
            isCompact_head_pos _ hcomp (by rw [getD_drop_zero v 1 hr]; exact hpos)
          rw [hv0]
          exact isCompact_cons_pos _ _ hall
      case isFalse hrne =>
        have hr0 : 0 < r := Nat.pos_of_ne_zero hrne
        have hsub : r - 1 + 1 = r := by omega
        apply ih v (r - 1)
        · omega
        · rw [hsub, drop_eq_getD_cons v r (by omega)]
          rcases hd with h0 | hpos
          · rw [h0]
            exact isCompact_cons_zero _ hcomp
          · exact isCompact_cons_pos _ _
              (isCompact_head_pos _ hcomp (by rw [getD_drop_zero v (r + 1) hr]; exact hpos))
        · omega

/-- One column of `__shift_down` produces the canonical compacted
column. -/
theorem shiftDownCol_eq (v : List Nat) : shiftDownCol v = compactCol v := by
  unfold shiftDownCol
  split
  case isTrue h2 =>
    apply gravityLoop_eq
    · omega
    · apply isCompact_of_short
      rw [List.length_drop]
      omega
    · omega
  case isFalse h2 =>
    exact isCompact_eq v (isCompact_of_short v (by omega))

theorem shiftDownCol_length (v : List Nat) : (shiftDownCol v).length = v.length := by
  rw [shiftDownCol_eq]
  exact compactCol_length v

/-! ### Assembling `__shift_down` over the whole matrix -/

theorem length_colOf (m : List (List Nat)) (c : Nat) : (colOf m c).length = m.length := by
  simp [colOf]

theorem length_setCol (m : List (List Nat)) (v : List Nat) (c : Nat)
    (h : v.length = m.length) : (setCol m c v).length = m.length := by
  simp [setCol]
  omega

theorem mem_setCol_length (m : List (List Nat)) (v : List Nat) (c : Nat) (cols : Nat)
    (hcols : ∀ row ∈ m, row.length = cols) :
    ∀ row ∈ setCol m c v, row.length = cols := by
  induction m generalizing v with
  | nil => intro row hrow; simp [setCol] at hrow
  | cons a t ih =>
    intro row hrow
    cases v with
    | nil => simp [setCol] at hrow
    | cons x xs =>
      rcases List.mem_cons.mp hrow with h1 | h2
      · rw [h1, List.length_set]
        exact hcols a (List.mem_cons_self a t)
      · exact ih xs (fun r hr => hcols r (List.mem_cons_of_mem a hr)) row h2

theorem rect_setCol (m : List (List Nat)) (v : List Nat) (c rows cols : Nat)
    (hm : Rect m rows cols) (hv : v.length = rows) :
    Rect (setCol m c v) rows cols := by
  refine ⟨?_, mem_setCol_length m v c cols hm.2⟩
  rw [length_setCol m v c (by rw [hv, hm.1]), hm.1]

theorem colOf_setCol_same : ∀ (m : List (List Nat)) (v : List Nat) (c : Nat),
    v.length = m.length → (∀ row ∈ m, c < row.length) →
    colOf (setCol m c v) c = v := by
  intro m
  induction m with
  | nil =>
    intro v c hv _
    have hv0 : v = [] := List.length_eq_zero.mp (by simpa using hv)
    subst hv0
    rfl
  | cons a t ih =>
    intro v c hv hc
    cases v with
    | nil => simp at hv
    | cons x xs =>
      show (a.set c x).getD c 0 :: colOf (setCol t c xs) c = x :: xs
      rw [getD_set_self a c x 0 (hc a (List.mem_cons_self a t)),
        ih xs c (by simpa using hv) (fun r hr => hc r (List.mem_cons_of_mem a hr))]

theorem colOf_setCol_ne : ∀ (m : List (List Nat)) (v : List Nat) (c c' : Nat),
    c ≠ c' → v.length = m.length →
    colOf (setCol m c v) c' = colOf m c' := by
  intro m
  induction m with
  | nil => intro v c c' _ _; rfl
  | cons a t ih =>
    intro v c c' hne hv
    cases v with
    | nil => simp at hv
    | cons x xs =>
      show (a.set c x).getD c' 0 :: colOf (setCol t c xs) c' =
        a.getD c' 0 :: colOf t c'
      rw [getD_set_ne a c c' x 0 hne, ih xs c c' hne (by simpa using hv)]

theorem shiftDownFrom_spec :
    ∀ (k c : Nat) (m : List (List Nat)) (rows cols : Nat),
      Rect m rows cols → c + k ≤ cols →
      Rect (shiftDownFrom m c k) rows cols ∧
      (∀ j, (j < c ∨ c + k ≤ j) → colOf (shiftDownFrom m c k) j = colOf m j) ∧
      (∀ j, c ≤ j → j < c + k →
        colOf (shiftDownFrom m c k) j = shiftDownCol (colOf m j)) := by
  intro k
  induction k with
  | zero =>
    intro c m rows cols hm _
    exact ⟨hm, fun j _ => rfl, fun j h1 h2 => absurd h2 (by omega)⟩
  | succ n ih =>
    intro c m rows cols hm hck
    have hvlen : (shiftDownCol (colOf m c)).length = m.length := by
      rw [shiftDownCol_length, length_colOf]
    have hrect' : Rect (setCol m c (shiftDownCol (colOf m c))) rows cols :=
      rect_setCol m _ c rows cols hm (by rw [hvlen, hm.1])
    have hcol_same : colOf (setCol m c (shiftDownCol (colOf m c))) c =
        shiftDownCol (colOf m c) :=
      colOf_setCol_same m _ c hvlen (fun row hrow => by rw [hm.2 row hrow]; omega)
    have hcol_ne : ∀ j, j ≠ c →
        colOf (setCol m c (shiftDownCol (colOf m c))) j = colOf m j :=
      fun j hj => colOf_setCol_ne m _ c j (fun he => hj he.symm) hvlen
    obtain ⟨ihrect, ihun, ihproc⟩ :=
      ih (c + 1) (setCol m c (shiftDownCol (colOf m c))) rows cols hrect' (by omega)
    have hstep : shiftDownFrom m c (n + 1) =
        shiftDownFrom (setCol m c (shiftDownCol (colOf m c))) (c + 1) n := rfl
    refine ⟨by rw [hstep]; exact ihrect, ?_, ?_⟩
    · intro j hj
      have hjc : j ≠ c := by omega
      rw [hstep, ihun j (by omega), hcol_ne j hjc]
    · intro j h1 h2
      by_cases hjc : j = c
      · subst hjc
        rw [hstep, ihun j (Or.inl (by omega)), hcol_same]
      · rw [hstep, ihproc j (by omega) (by omega), hcol_ne j hjc]

/-- **C3.** After the vertical collapse `__shift_down`, every column of
the board consists of all its empty cells on top followed by its nonzero
cells in their original top-to-bottom order — equivalently, the column
equals `replicate (number of zeros) 0 ++ (original nonzero cells in
order)`, so the nonzero cells form a contiguous run ending at the bottom
row with no reordering. -/
theorem shift_down_compacts (b : Board) (hw : WF b) (c : Nat) (hc : c < b.cols) :
    colOf (shift_down b).matrix c =
      List.replicate ((colOf b.matrix c).count 0) 0 ++
        (colOf b.matrix c).filter (fun x => decide (0 < x)) := by
  obtain ⟨-, -, hproc⟩ := shiftDownFrom_spec b.cols 0 b.matrix b.rows b.cols hw (by omega)
  have hmx : (shift_down b).matrix = shiftDownFrom b.matrix 0 b.cols := rfl
  rw [hmx, hproc c (Nat.zero_le c) (by omega), shiftDownCol_eq]
  rfl

/-- Witness for `shift_down_compacts` on a one-column board `[5, 0, 7]`,
which collapses to `[0, 5, 7]`. -/
theorem shift_down_compacts_witness :
    WF ⟨1, 3, 0, [[5], [0], [7]]⟩ ∧
    colOf (shift_down ⟨1, 3, 0, [[5], [0], [7]]⟩).matrix 0 =
      List.replicate ((colOf [[5], [0], [7]] 0).count 0) 0 ++
        (colOf [[5], [0], [7]] 0).filter (fun x => decide (0 < x)) :=
  ⟨by decide, shift_down_compacts ⟨1, 3, 0, [[5], [0], [7]]⟩ (by decide) 0 (by decide)⟩

/-! ### The horizontal collapse `__shift_left` -/

theorem colsAux_length (m : List (List Nat)) : ∀ (k c : Nat), (colsAux m c k).length = k := by
  intro k
  induction k with
  | zero => intro c; rfl
  | succ n ih =>
    intro c
    show (colOf m c :: colsAux m (c + 1) n).length = n + 1
    rw [List.length_cons, ih]

theorem colsAux_split (m : List (List Nat)) : ∀ (j c k : Nat),
    colsAux m c (j + k) = colsAux m c j ++ colsAux m (c + j) k := by
  intro j
  induction j with
  | zero =>
    intro c k
    simp [colsAux]
  | succ n ih =>
    intro c k
    have h1 : (n + 1) + k = (n + k) + 1 := by omega
    rw [h1]
    show colOf m c :: colsAux m (c + 1) (n + k) =
      (colOf m c :: colsAux m (c + 1) n) ++ colsAux m (c + (n + 1)) k
    rw [List.cons_append, ih (c + 1) k]
    have h2 : c + 1 + n = c + (n + 1) := by omega
    rw [h2]

theorem colsAux_congr (m1 m2 : List (List Nat)) : ∀ (k c : Nat),
    (∀ j, c ≤ j → j < c + k → colOf m1 j = colOf m2 j) →
    colsAux m1 c k = colsAux m2 c k := by
  intro k
  induction k with
  | zero => intro c _; rfl
  | succ n ih =>
    intro c h
    show colOf m1 c :: colsAux m1 (c + 1) n = colOf m2 c :: colsAux m2 (c + 1) n
    rw [h c (Nat.le_refl c) (by omega), ih (c + 1) (fun j h1 h2 => h j (by omega) (by omega))]

theorem colsAux_getD (m : List (List Nat)) : ∀ (k c i : Nat), i < k →
    (colsAux m c k).getD i [] = colOf m (c + i) := by
  intro k
  induction k with
  | zero => intro c i hi; omega
  | succ n ih =>
    intro c i hi
    cases i with
    | zero =>
      show (colOf m c :: colsAux m (c + 1) n).getD 0 [] = colOf m (c + 0)
      rfl
    | succ j =>
      show (colOf m c :: colsAux m (c + 1) n).getD (j + 1) [] = colOf m (c + (j + 1))
      rw [List.getD_cons_succ, ih (c + 1) j (by omega)]
      have : c + 1 + j = c + (j + 1) := by omega
      rw [this]

theorem colsAux_mem_length (m : List (List Nat)) : ∀ (k c : Nat),
    ∀ v ∈ colsAux m c k, v.length = m.length := by
  intro k
  induction k with
  | zero => intro c v hv; simp [colsAux] at hv
  | succ n ih =>
    intro c v hv
    rcases List.mem_cons.mp hv with h1 | h2
    · rw [h1, length_colOf]
    · exact ih (c + 1) v h2

theorem isempty_eq (m : List (List Nat)) (c : Nat) :
    isempty m c = !colNonempty (colOf m c) := by
  induction m with
  | nil => rfl
  | cons row t ih =>
    have ha : isempty (row :: t) c = ((!decide (0 < row.getD c 0)) && isempty t c) := by
      simp [isempty]
    have hb : colNonempty (colOf (row :: t) c) =
        (decide (0 < row.getD c 0) || colNonempty (colOf t c)) := by
      simp [colNonempty, colOf]
    rw [ha, hb, ih, Bool.not_or]

theorem colNonempty_replicate (n : Nat) : colNonempty (List.replicate n 0) = false := by
  induction n with
  | zero => rfl
  | succ k ih =>
    have hstep : colNonempty (0 :: List.replicate k 0) =
        (decide (0 < 0) || colNonempty (List.replicate k 0)) := by
      simp [colNonempty]
    rw [List.replicate_succ, hstep, ih]
    rfl

theorem colOf_empty_eq_replicate (v : List Nat) (rows : Nat) (hlen : v.length = rows)
    (h : colNonempty v = false) : v = List.replicate rows 0 := by
  subst hlen
  apply List.eq_replicate_iff.mpr
  refine ⟨rfl, ?_⟩
  intro b hb
  by_contra hb0
  have hpos : 0 < b := by omega
  have hne : colNonempty v = true := by
    unfold colNonempty
    rw [List.any_eq_true]
    exact ⟨b, hb, by simpa using hpos⟩
  rw [hne] at h
  cases h

theorem phiCols_cons (k : Nat) (v : List Nat) (l : List (List Nat)) :
    phiCols k (v :: l) = (if colNonempty v then k else 0) + phiCols (k + 1) l := rfl

theorem phiCols_append : ∀ (l1 l2 : List (List Nat)) (k : Nat),
    phiCols k (l1 ++ l2) = phiCols k l1 + phiCols (k + l1.length) l2 := by
  intro l1
  induction l1 with
  | nil =>
    intro l2 k
    simp [phiCols]
  | cons v t ih =>
    intro l2 k
    rw [List.cons_append, phiCols_cons, phiCols_cons, ih l2 (k + 1), List.length_cons]
    have : k + 1 + t.length = k + (t.length + 1) := by omega
    rw [this]
    omega

theorem rect_copyleft (m : List (List Nat)) (c rows cols : Nat) (hm : Rect m rows cols) :
    Rect (copyleft m c) rows cols := by
  constructor
  · rw [copyleft, List.length_map, hm.1]
  · intro row hrow
    obtain ⟨r, hr, rfl⟩ := List.mem_map.mp hrow
    rw [List.length_set, List.length_set]
    exact hm.2 r hr

theorem colOf_copyleft_ne : ∀ (m : List (List Nat)) (c c' : Nat), c' ≠ c → c' ≠ c + 1 →
    colOf (copyleft m c) c' = colOf m c' := by
  intro m c c' h1 h2
  induction m with
  | nil => rfl
  | cons row t ih =>
    show ((row.set c (row.getD (c + 1) 0)).set (c + 1) 0).getD c' 0 :: _ = row.getD c' 0 :: _
    rw [getD_set_ne _ _ _ _ _ (fun he => h2 he.symm), getD_set_ne _ _ _ _ _ (fun he => h1 he.symm)]
    exact congrArg _ ih

theorem colOf_copyleft_left : ∀ (m : List (List Nat)) (c : Nat),
    (∀ row ∈ m, c + 1 < row.length) →
    colOf (copyleft m c) c = colOf m (c + 1) := by
  intro m c
  induction m with
  | nil => intro _; rfl
  | cons row t ih =>
    intro h
    show ((row.set c (row.getD (c + 1) 0)).set (c + 1) 0).getD c 0 :: _ = row.getD (c + 1) 0 :: _
    rw [getD_set_ne _ _ _ _ _ (by omega),
      getD_set_self _ _ _ _ (by have := h row (List.mem_cons_self row t); omega)]
    exact congrArg _ (ih (fun r hr => h r (List.mem_cons_of_mem row hr)))

theorem colOf_copyleft_right : ∀ (m : List (List Nat)) (c : Nat),
    (∀ row ∈ m, c + 1 < row.length) →
    colOf (copyleft m c) (c + 1) = List.replicate m.length 0 := by
  intro m c
  induction m with
  | nil => intro _; rfl
  | cons row t ih =>
    intro h
    show ((row.set c (row.getD (c + 1) 0)).set (c + 1) 0).getD (c + 1) 0 :: _ =
      List.replicate (t.length + 1) 0
    rw [List.replicate_succ,
      getD_set_self _ _ _ _ (by rw [List.length_set]; exact h row (List.mem_cons_self row t))]
    exact congrArg _ (ih (fun r hr => h r (List.mem_cons_of_mem row hr)))

theorem all_empty_of_chain (cs : List (List Nat))
    (hchain : ∀ i, i + 1 < cs.length → colNonempty (cs.getD i []) = false →
      colNonempty (cs.getD (i + 1) []) = false)
    (h0 : colNonempty (cs.getD 0 []) = false) :
    ∀ i, i < cs.length → colNonempty (cs.getD i []) = false := by
  intro i
  induction i with
  | zero => intro _; exact h0
  | succ n ihn => intro hi; exact hchain n hi (ihn (by omega))

/-- A list of columns with no empty column immediately left of a nonempty
one consists of its nonempty columns (in order) followed by empty
columns. -/
theorem chain_empties_suffix (rows : Nat) : ∀ (cs : List (List Nat)),
    (∀ v ∈ cs, v.length = rows) →
    (∀ i, i + 1 < cs.length → colNonempty (cs.getD i []) = false →
      colNonempty (cs.getD (i + 1) []) = false) →
    cs = cs.filter colNonempty ++
      List.replicate (cs.length - (cs.filter colNonempty).length)
        (List.replicate rows 0) := by
  intro cs
  induction cs with
  | nil => intro _ _; rfl
  | cons v t ih =>
    intro hlen hchain
    cases hv : colNonempty v with
    | false =>
      have hall : ∀ u ∈ v :: t, colNonempty u = false := by
        intro u hu
        obtain ⟨i, hi, hget⟩ := List.getElem_of_mem hu
        have hgd : (v :: t).getD i [] = u := by
          rw [List.getD_eq_getElem _ _ hi, hget]
        have := all_empty_of_chain (v :: t) hchain (by simpa using hv) i hi
        rw [hgd] at this
        exact this
      have hfilter : (v :: t).filter colNonempty = [] :=
        List.filter_eq_nil_iff.mpr (fun a ha => by rw [hall a ha]; simp)
      rw [hfilter, List.nil_append]
      have hrepl : ∀ u ∈ v :: t, u = List.replicate rows 0 := fun u hu =>
        colOf_empty_eq_replicate u rows (hlen u hu) (hall u hu)
      have hlen0 : (v :: t).length = (v :: t).length - ([] : List (List Nat)).length := by
        simp
      rw [List.eq_replicate_iff.mpr ⟨rfl, hrepl⟩]
      simp
    | true =>
      have hfilter : (v :: t).filter colNonempty = v :: t.filter colNonempty := by
        rw [List.filter_cons, if_pos hv]
      have hchain' : ∀ i, i + 1 < t.length → colNonempty (t.getD i []) = false →
          colNonempty (t.getD (i + 1) []) = false := by
        intro i hi he
        have := hchain (i + 1) (by simp; omega) (by simpa using he)
        simpa using this
      have htl := ih (fun u hu => hlen u (List.mem_cons_of_mem v hu)) hchain'
      rw [hfilter, List.cons_append]
      have harith : (v :: t).length - (v :: t.filter colNonempty).length =
          t.length - (t.filter colNonempty).length := by
        simp
      rw [harith]
      exact congrArg _ htl

/-- The `__shift_left` loop produces: the nonempty columns, in their
original left-to-right order with their contents intact, followed by
all-empty columns. -/
theorem shiftLeftLoop_run :
    ∀ (fuel : Nat) (m : List (List Nat)) (col : Nat) (rows cols : Nat),
      Rect m rows cols →
      (∀ c', c' + 1 < cols → c' < col →
        ¬(isempty m c' = true ∧ isempty m (c' + 1) = false)) →
      phiCols 0 (colsOf m cols) * cols + (cols - col) < fuel →
      colsOf (shiftLeftLoop cols fuel m col) cols =
        (colsOf m cols).filter colNonempty ++
          List.replicate (cols - ((colsOf m cols).filter colNonempty).length)
            (List.replicate rows 0) := by
  intro fuel
  induction fuel with
  | zero =>
    intro m col rows cols _ _ hfuel
    omega
  | succ n ih =>
    intro m col rows cols hm hpre hfuel
    rw [shiftLeftLoop]
    by_cases hcol : col < cols - 1
    · rw [if_pos hcol]
      cases hb : (isempty m col && !isempty m (col + 1)) with
      | true =>
        rw [if_pos rfl]
        have hb' : isempty m col = true ∧ isempty m (col + 1) = false := by
          simpa using hb
        obtain ⟨h1, h2⟩ := hb'
        have hcneZ : colNonempty (colOf m col) = false := by
          have hh : (!colNonempty (colOf m col)) = true := by
            rw [← isempty_eq]
            exact h1
          simpa using hh
        have hcneX : colNonempty (colOf m (col + 1)) = true := by
          have hh : (!colNonempty (colOf m (col + 1))) = false := by
            rw [← isempty_eq]
            exact h2
          simpa using hh
        have hrowlen : ∀ row ∈ m, col + 1 < row.length := by
          intro row hrow
          rw [hm.2 row hrow]
          omega
        have hsplit : colsOf m cols =
            colsAux m 0 col ++ colOf m col :: colOf m (col + 1) ::
              colsAux m (col + 2) (cols - col - 2) := by
          have h1' : cols = col + ((cols - col - 2) + 2) := by omega
          calc colsOf m cols
              = colsAux m 0 (col + ((cols - col - 2) + 2)) := by
                rw [colsOf]
                congr 1
                try omega
            _ = colsAux m 0 col ++ colsAux m (0 + col) ((cols - col - 2) + 2) :=
                colsAux_split m col 0 ((cols - col - 2) + 2)
            _ = colsAux m 0 col ++ colOf m col :: colOf m (col + 1) ::
                  colsAux m (col + 2) (cols - col - 2) := by
                rw [Nat.zero_add]
                rfl
        have hsplit' : colsOf (copyleft m col) cols =
            colsAux m 0 col ++ colOf m (col + 1) :: List.replicate rows 0 ::
              colsAux m (col + 2) (cols - col - 2) := by
          calc colsOf (copyleft m col) cols
              = colsAux (copyleft m col) 0 (col + ((cols - col - 2) + 2)) := by
                rw [colsOf]
                congr 1
                omega
            _ = colsAux (copyleft m col) 0 col ++
                  colsAux (copyleft m col) (0 + col) ((cols - col - 2) + 2) :=
                colsAux_split (copyleft m col) col 0 ((cols - col - 2) + 2)
            _ = colsAux (copyleft m col) 0 col ++
                  colOf (copyleft m col) col :: colOf (copyleft m col) (col + 1) ::
                  colsAux (copyleft m col) (col + 2) (cols - col - 2) := by
                rw [Nat.zero_add]
                rfl
            _ = colsAux m 0 col ++ colOf m (col + 1) :: List.replicate rows 0 ::
                  colsAux m (col + 2) (cols - col - 2) := by
                rw [colsAux_congr (copyleft m col) m col 0
                      (fun j hj1 hj2 => colOf_copyleft_ne m col j (by omega) (by omega)),
                    colsAux_congr (copyleft m col) m (cols - col - 2) (col + 2)
                      (fun j hj1 hj2 => colOf_copyleft_ne m col j (by omega) (by omega)),
                    colOf_copyleft_left m col hrowlen,
                    colOf_copyleft_right m col hrowlen, hm.1]
        have hfiltEq : (colsOf (copyleft m col) cols).filter colNonempty =
            (colsOf m cols).filter colNonempty := by
          rw [hsplit, hsplit']
          rw [List.filter_append, List.filter_append, List.filter_cons, List.filter_cons,
            List.filter_cons, List.filter_cons, hcneZ, hcneX, colNonempty_replicate]
          simp
        have hphi : phiCols 0 (colsOf m cols) =
            phiCols 0 (colsOf (copyleft m col) cols) + 1 := by
          rw [hsplit, hsplit']
          rw [phiCols_append, phiCols_append, colsAux_length, phiCols_cons, phiCols_cons,
            phiCols_cons, phiCols_cons, hcneZ, hcneX, colNonempty_replicate]
          simp
          try omega
        have hrect' : Rect (copyleft m col) rows cols := rect_copyleft m col rows cols hm
        have hih := ih (copyleft m col) 0 rows cols hrect'
          (fun c' _ hc' => absurd hc' (by omega))
          (by
            have hmul : phiCols 0 (colsOf m cols) * cols =
                phiCols 0 (colsOf (copyleft m col) cols) * cols + cols := by
              rw [hphi, Nat.succ_mul]
            rw [hmul] at hfuel
            omega)
        rw [hih, hfiltEq]
      | false =>
        rw [if_neg (by simp)]
        apply ih m (col + 1) rows cols hm
        · intro c' hc1 hc2
          by_cases hcc : c' < col
          · exact hpre c' hc1 hcc
          · have hceq : c' = col := by omega
            subst hceq
            rintro ⟨he1, he2⟩
            rw [he1, he2] at hb
            simp at hb
        · omega
    · rw [if_neg hcol]
      have hchain : ∀ i, i + 1 < (colsOf m cols).length →
          colNonempty ((colsOf m cols).getD i []) = false →
          colNonempty ((colsOf m cols).getD (i + 1) []) = false := by
        intro i hi he
        rw [colsOf, colsAux_length] at hi
        rw [colsOf, colsAux_getD m cols 0 i (by omega), Nat.zero_add] at he
        rw [colsOf, colsAux_getD m cols 0 (i + 1) (by omega), Nat.zero_add]
        have hie : isempty m i = true := by
          rw [isempty_eq, he]
          rfl
        have hnp := hpre i (by omega) (by omega)
        have h2 : ¬(isempty m (i + 1) = false) := fun hf => hnp ⟨hie, hf⟩
        have h2' : isempty m (i + 1) = true := by
          cases hq : isempty m (i + 1) with
          | false => exact absurd hq h2
          | true => rfl
        have hh : (!colNonempty (colOf m (i + 1))) = true := by
          rw [← isempty_eq]
          exact h2'
        simpa using hh
      have hcs := chain_empties_suffix rows (colsOf m cols)
        (fun v hv => by rw [colsAux_mem_length m cols 0 v hv, hm.1]) hchain
      have hL : (colsOf m cols).length = cols := by
        rw [colsOf]
        exact colsAux_length m cols 0
      conv_lhs => rw [hcs, hL]

/-- **C4.** After the horizontal collapse `__shift_left`, the columns of
the board are exactly the originally nonempty columns, in their original
left-to-right order and with their contents unchanged, followed only by
fully-empty columns — so no empty column sits left of a nonempty one. -/
theorem shift_left_compacts (b : Board) (hw : WF b) :
    colsOf (shift_left b).matrix b.cols =
      (colsOf b.matrix b.cols).filter colNonempty ++
        List.replicate (b.cols - ((colsOf b.matrix b.cols).filter colNonempty).length)
          (List.replicate b.rows 0) := by
  have hmx : (shift_left b).matrix =
      shiftLeftLoop b.cols (phiCols 0 (colsOf b.matrix b.cols) * b.cols + b.cols + 1)
        b.matrix 0 := rfl
  rw [hmx]
  apply shiftLeftLoop_run _ b.matrix 0 b.rows b.cols hw
    (fun c' _ hc' => absurd hc' (by omega))
  omega

/-- Witness for `shift_left_compacts` on a board with an empty column in
front: `[[0, 5, 0]]` becomes `[[5, 0, 0]]`. -/
theorem shift_left_compacts_witness :
    WF ⟨3, 1, 0, [[0, 5, 0]]⟩ ∧
    colsOf (shift_left ⟨3, 1, 0, [[0, 5, 0]]⟩).matrix 3 =
      (colsOf [[0, 5, 0]] 3).filter colNonempty ++
        List.replicate (3 - ((colsOf [[0, 5, 0]] 3).filter colNonempty).length)
          (List.replicate 1 0) :=
  ⟨by decide, shift_left_compacts ⟨3, 1, 0, [[0, 5, 0]]⟩ (by decide)⟩

/-! ### Cell updates and counting for the flood fill -/

theorem take_cons_drop (v : List Nat) (i : Nat) (h : i < v.length) :
    v = v.take i ++ v.getD i 0 :: v.drop (i + 1) := by
  conv_lhs => rw [← List.take_append_drop i v]
  rw [drop_eq_getD_cons v i h]

theorem mem_set_of_mem {α : Type} : ∀ (l : List α) (i : Nat) (x : α),
    ∀ y ∈ l.set i x, y ∈ l ∨ y = x := by
  intro l
  induction l with
  | nil => intro i x y hy; simp at hy
  | cons a t ih =>
    intro i x y hy
    cases i with
    | zero =>
      rcases List.mem_cons.mp hy with h1 | h2
      · exact Or.inr h1
      · exact Or.inl (List.mem_cons_of_mem a h2)
    | succ n =>
      rcases List.mem_cons.mp hy with h1 | h2
      · exact Or.inl (h1 ▸ List.mem_cons_self a t)
      · rcases ih n x y h2 with h3 | h4
        · exact Or.inl (List.mem_cons_of_mem a h3)
        · exact Or.inr h4

theorem getD_replicate {α : Type} : ∀ (n : Nat) (a d : α) (i : Nat),
    (List.replicate n a).getD i d = if i < n then a else d := by
  intro n
  induction n with
  | zero => intro a d i; simp
  | succ k ih =>
    intro a d i
    cases i with
    | zero => simp [List.replicate_succ]
    | succ j =>
      rw [List.replicate_succ, List.getD_cons_succ, ih]
      by_cases hj : j < k
      · rw [if_pos hj, if_pos (by omega)]
      · rw [if_neg hj, if_neg (by omega)]

theorem cellAt_zeroMatrix (rows cols i j : Nat) : cellAt (zeroMatrix rows cols) i j = 0 := by
  unfold cellAt zeroMatrix
  rw [getD_replicate]
  by_cases hi : i < rows
  · rw [if_pos hi, getD_replicate]
    by_cases hj : j < cols
    · rw [if_pos hj]
    · rw [if_neg hj]
  · rw [if_neg hi]
    rfl

theorem countOnes_zeroMatrix (rows cols : Nat) : countOnes (zeroMatrix rows cols) = 0 := by
  unfold countOnes zeroMatrix
  rw [List.map_replicate]
  have h1 : (List.replicate cols (0 : Nat)).count 1 = 0 :=
    List.count_eq_zero.mpr (fun hmem => by
      have := List.eq_of_mem_replicate hmem
      omega)
  rw [h1]
  simp

theorem cellAt_upd2_self (M : List (List Nat)) (r c x : Nat)
    (hr : r < M.length) (hc : c < (M.getD r []).length) :
    cellAt (upd2 M r c x) r c = x := by
  unfold cellAt upd2
  rw [getD_set_self _ _ _ _ hr, getD_set_self _ _ _ _ hc]

theorem cellAt_upd2_ne (M : List (List Nat)) (r c x i j : Nat)
    (hij : (i, j) ≠ (r, c)) :
    cellAt (upd2 M r c x) i j = cellAt M i j := by
  unfold cellAt upd2
  by_cases hir : i = r
  · subst hir
    have hjc : j ≠ c := by
      intro he
      exact hij (by rw [he])
    by_cases hr : i < M.length
    · rw [getD_set_self _ _ _ _ hr, getD_set_ne _ _ _ _ _ (fun he => hjc he.symm)]
    · have hset : M.set i ((M.getD i []).set c x) = M := by
        apply List.set_eq_of_length_le
        omega
      rw [hset]
  · rw [getD_set_ne _ _ _ _ _ (fun he => hir he.symm)]

theorem upd2_length (M : List (List Nat)) (r c x : Nat) : (upd2 M r c x).length = M.length := by
  simp [upd2]

theorem upd2_row_length (M : List (List Nat)) (r c x : Nat) (cols : Nat)
    (hr : r < M.length) (hrows : ∀ mr ∈ M, mr.length = cols) :
    ∀ mr ∈ upd2 M r c x, mr.length = cols := by
  intro mr hmr
  rcases mem_set_of_mem M r ((M.getD r []).set c x) mr hmr with h1 | h2
  · exact hrows mr h1
  · rw [h2, List.length_set]
    apply hrows
    rw [List.getD_eq_getElem M [] hr]
    exact List.getElem_mem hr

theorem getD_map_count (M : List (List Nat)) (r : Nat) (hr : r < M.length) :
    (M.map (fun row => row.count 1)).getD r 0 = (M.getD r []).count 1 := by
  rw [List.getD_eq_getElem _ _ (by simpa using hr), List.getD_eq_getElem _ _ hr,
    List.getElem_map]

theorem sum_set (l : List Nat) : ∀ (i y : Nat), i < l.length →
    (l.set i y).sum + l.getD i 0 = l.sum + y := by
  induction l with
  | nil => intro i y hi; simp at hi
  | cons a t ih =>
    intro i y hi
    cases i with
    | zero => simp [List.sum_cons]; omega
    | succ n =>
      rw [List.set_cons_succ, List.getD_cons_succ, List.sum_cons, List.sum_cons]
      have := ih n y (by simpa using hi)
      omega

theorem count_set_one (row : List Nat) (c : Nat) (hc : c < row.length)
    (h0 : row.getD c 0 = 0) :
    (row.set c 1).count 1 = row.count 1 + 1 := by
  have hdec := take_cons_drop row c hc
  rw [List.set_eq_take_append_cons_drop, if_pos hc]
  conv_rhs => rw [hdec]
  rw [h0, List.count_append, List.count_append, List.count_cons, List.count_cons]
  simp
  omega

theorem map_set_count (M : List (List Nat)) : ∀ (r : Nat) (row : List Nat),
    (M.set r row).map (fun q => q.count 1) =
      (M.map (fun q => q.count 1)).set r (row.count 1) := by
  induction M with
  | nil => intro r row; rfl
  | cons a t ih =>
    intro r row
    cases r with
    | zero => rfl
    | succ n =>
      rw [List.set_cons_succ, List.map_cons, List.map_cons, List.set_cons_succ, ih]

theorem countOnes_upd2 (M : List (List Nat)) (r c : Nat)
    (hr : r < M.length) (hc : c < (M.getD r []).length) (h0 : cellAt M r c = 0) :
    countOnes (upd2 M r c 1) = countOnes M + 1 := by
  unfold countOnes upd2
  rw [map_set_count, count_set_one (M.getD r []) c hc h0]
  have hlen : r < (M.map (fun q => q.count 1)).length := by simpa using hr
  have hs := sum_set (M.map (fun q => q.count 1)) r ((M.getD r []).count 1 + 1) hlen
  rw [getD_map_count M r hr] at hs
  omega

theorem tested_card_le (rows cols : Nat) (l : List (Nat × Nat)) (hnd : l.Nodup)
    (hrange : ∀ p ∈ l, p.1 < rows ∧ p.2 < cols) : l.length ≤ rows * cols := by
  classical
  have h1 : l.toFinset.card = l.length := List.toFinset_card_of_nodup hnd
  have h2 : l.toFinset ⊆ Finset.range rows ×ˢ Finset.range cols := by
    intro p hp
    rw [List.mem_toFinset] at hp
    have := hrange p hp
    rw [Finset.mem_product, Finset.mem_range, Finset.mem_range]
    exact this
  calc l.length = l.toFinset.card := h1.symm
    _ ≤ (Finset.range rows ×ˢ Finset.range cols).card := Finset.card_le_card h2
    _ = rows * cols := by rw [Finset.card_product, Finset.card_range, Finset.card_range]

/-! ### One `mark_hotspots` call preserves the flood invariant -/

theorem mark_spec (mat : List (List Nat)) (rows cols v : Nat) (s₀ : Nat × Nat)
    (s : FState) (p n : Nat × Nat)
    (hcore : FCore mat rows cols v s₀ s)
    (hp : p ∈ s.tested)
    (hps : p ∉ s.stack)
    (hcb : ClosedBut mat rows cols v p s)
    (hn1 : n.1 < rows) (hn2 : n.2 < cols) (hadj : adjacent p n) :
    FCore mat rows cols v s₀ (markHotspots mat s p n) ∧
    ClosedBut mat rows cols v p (markHotspots mat s p n) ∧
    (∀ q ∈ s.tested, q ∈ (markHotspots mat s p n).tested) ∧
    p ∈ (markHotspots mat s p n).tested ∧
    p ∉ (markHotspots mat s p n).stack ∧
    (cellAt mat n.1 n.2 = v → n ∈ (markHotspots mat s p n).tested) ∧
    (markHotspots mat s p n).tested.length + s.stack.length =
      s.tested.length + (markHotspots mat s p n).stack.length := by
  have hpv : cellAt mat p.1 p.2 = v := hcore.valT p hp
  unfold markHotspots
  by_cases hveq : cellAt mat p.1 p.2 = cellAt mat n.1 n.2
  · rw [if_pos hveq]
    by_cases hmem : n ∈ s.tested
    · rw [if_pos hmem]
      exact ⟨hcore, hcb, fun q hq => hq, hp, hps, fun _ => hmem, rfl⟩
    · rw [if_neg hmem]
      have hnv : cellAt mat n.1 n.2 = v := by rw [← hveq]; exact hpv
      have hnstack : n ∉ s.stack := fun hm2 => hmem (hcore.stackT n hm2)
      have hrowlt : n.1 < s.marks.length := by rw [hcore.mLen]; exact hn1
      have hcollt : n.2 < (s.marks.getD n.1 []).length := by
        have hmemrow : s.marks.getD n.1 [] ∈ s.marks := by
          rw [List.getD_eq_getElem s.marks [] hrowlt]
          exact List.getElem_mem hrowlt
        rw [hcore.mRows _ hmemrow]
        exact hn2
      have hmark0 : cellAt s.marks n.1 n.2 = 0 := by
        rcases hcore.mBin n.1 n.2 hn1 hn2 with h | h
        · exact h
        · exact absurd ((hcore.mOne n.1 n.2 hn1 hn2).mp h)
            (by simpa using hmem)
      have hpn : p ≠ n := fun he => hmem (he ▸ hp)
      refine ⟨⟨?_, ?_, ?_, ?_, ?_, ?_, ?_, ?_, ?_, ?_, ?_, ?_⟩, ?_, ?_, ?_, ?_, ?_, ?_⟩
      · exact List.nodup_cons.mpr ⟨hmem, hcore.nodupT⟩
      · intro q hq
        rcases List.mem_cons.mp hq with h1 | h2
        · rw [h1]; exact ⟨hn1, hn2⟩
        · exact hcore.rangeT q h2
      · intro q hq
        rcases List.mem_cons.mp hq with h1 | h2
        · rw [h1]; exact hnv
        · exact hcore.valT q h2
      · exact List.mem_cons_of_mem n hcore.seedT
      · intro q hq
        rcases List.mem_cons.mp hq with h1 | h2
        · rw [h1]; exact List.mem_cons_self n s.tested
        · exact List.mem_cons_of_mem n (hcore.stackT q h2)
      · exact List.nodup_cons.mpr ⟨hnstack, hcore.nodupS⟩
      · intro q hq
        rcases List.mem_cons.mp hq with h1 | h2
        · rw [h1]
          exact Relation.ReflTransGen.tail (hcore.reachT p hp) ⟨hadj, hn1, hn2, hnv⟩
        · exact hcore.reachT q h2
      · rw [upd2_length]; exact hcore.mLen
      · exact upd2_row_length s.marks n.1 n.2 1 cols hrowlt hcore.mRows
      · intro i j hi hj
        by_cases hin : (i, j) = (n.1, n.2)
        · have hi1 : i = n.1 := congrArg Prod.fst hin
          have hj1 : j = n.2 := congrArg Prod.snd hin
          subst hi1
          subst hj1
          rw [cellAt_upd2_self s.marks n.1 n.2 1 hrowlt hcollt]
          simp
        · rw [cellAt_upd2_ne s.marks n.1 n.2 1 i j hin]
          rw [hcore.mOne i j hi hj]
          constructor
          · exact fun h => List.mem_cons_of_mem n h
          · intro h
            rcases List.mem_cons.mp h with h1 | h2
            · exact absurd (by rw [h1]) hin
            · exact h2
      · intro i j hi hj
        by_cases hin : (i, j) = (n.1, n.2)
        · have hi1 : i = n.1 := congrArg Prod.fst hin
          have hj1 : j = n.2 := congrArg Prod.snd hin
          subst hi1
          subst hj1
          rw [cellAt_upd2_self s.marks n.1 n.2 1 hrowlt hcollt]
          exact Or.inr rfl
        · rw [cellAt_upd2_ne s.marks n.1 n.2 1 i j hin]
          exact hcore.mBin i j hi hj
      · rw [countOnes_upd2 s.marks n.1 n.2 hrowlt hcollt hmark0, hcore.mCount]
        simp
      · intro q hq hqs hqp q' hq1 hq2 hq3 hadj'
        rcases List.mem_cons.mp hq with h1 | h2
        · exact absurd (h1 ▸ List.mem_cons_self n s.stack) hqs
        · exact List.mem_cons_of_mem n
            (hcb q h2 (fun hm3 => hqs (List.mem_cons_of_mem n hm3)) hqp q' hq1 hq2 hq3 hadj')
      · exact fun q hq => List.mem_cons_of_mem n hq
      · exact List.mem_cons_of_mem n hp
      · intro hm3
        rcases List.mem_cons.mp hm3 with h1 | h2
        · exact hpn h1
        · exact hps h2
      · exact fun _ => List.mem_cons_self n s.tested
      · simp
        omega
  · rw [if_neg hveq]
    refine ⟨hcore, hcb, fun q hq => hq, hp, hps, ?_, rfl⟩
    intro hnv
    exact absurd (hpv.trans hnv.symm) hveq

theorem mark_step (mat : List (List Nat)) (rows cols v : Nat) (s₀ : Nat × Nat)
    (s : FState) (p : Nat × Nat) (guard : Prop) [Decidable guard] (n : Nat × Nat)
    (hcore : FCore mat rows cols v s₀ s)
    (hp : p ∈ s.tested)
    (hps : p ∉ s.stack)
    (hcb : ClosedBut mat rows cols v p s)
    (hn : guard → n.1 < rows ∧ n.2 < cols ∧ adjacent p n) :
    FCore mat rows cols v s₀ (if guard then markHotspots mat s p n else s) ∧
    ClosedBut mat rows cols v p (if guard then markHotspots mat s p n else s) ∧
    (∀ q ∈ s.tested, q ∈ (if guard then markHotspots mat s p n else s).tested) ∧
    p ∈ (if guard then markHotspots mat s p n else s).tested ∧
    p ∉ (if guard then markHotspots mat s p n else s).stack ∧
    (guard → cellAt mat n.1 n.2 = v →
      n ∈ (if guard then markHotspots mat s p n else s).tested) ∧
    (if guard then markHotspots mat s p n else s).tested.length + s.stack.length =
      s.tested.length + (if guard then markHotspots mat s p n else s).stack.length := by
  by_cases hg : guard
  · rw [if_pos hg]
    obtain ⟨h1, h2, h3⟩ := hn hg
    obtain ⟨a, b, c, d, e, f, g⟩ :=
      mark_spec mat rows cols v s₀ s p n hcore hp hps hcb h1 h2 h3
    exact ⟨a, b, c, d, e, fun _ => f, g⟩
  · rw [if_neg hg]
    exact ⟨hcore, hcb, fun q hq => hq, hp, hps, fun hg' => absurd hg' hg, rfl⟩

theorem floodBody_spec (mat : List (List Nat)) (rows cols v : Nat) (s₀ : Nat × Nat)
    (s1 : FState) (p : Nat × Nat)
    (hcore : FCore mat rows cols v s₀ s1)
    (hp : p ∈ s1.tested)
    (hps : p ∉ s1.stack)
    (hcb : ClosedBut mat rows cols v p s1) :
    FCore mat rows cols v s₀ (floodBody mat rows cols p s1) ∧
    Closed mat rows cols v (floodBody mat rows cols p s1) ∧
    (floodBody mat rows cols p s1).tested.length + s1.stack.length =
      s1.tested.length + (floodBody mat rows cols p s1).stack.length := by
  have hprange := hcore.rangeT p hp
  unfold floodBody
  dsimp only
  obtain ⟨c2, b2, m2, p2, ps2, g2, l2⟩ :=
    mark_step mat rows cols v s₀ s1 p (0 < p.2) (p.1, p.2 - 1) hcore hp hps hcb
      (fun hg => ⟨hprange.1, by omega, Or.inl ⟨rfl, Or.inl (by omega)⟩⟩)
  set s2 := if 0 < p.2 then markHotspots mat s1 p (p.1, p.2 - 1) else s1 with hs2
  obtain ⟨c3, b3, m3, p3, ps3, g3, l3⟩ :=
    mark_step mat rows cols v s₀ s2 p (p.2 < cols - 1) (p.1, p.2 + 1) c2 p2 ps2 b2
      (fun hg => ⟨hprange.1, by omega, Or.inl ⟨rfl, Or.inr (by omega)⟩⟩)
  set s3 := if p.2 < cols - 1 then markHotspots mat s2 p (p.1, p.2 + 1) else s2 with hs3
  obtain ⟨c4, b4, m4, p4, ps4, g4, l4⟩ :=
    mark_step mat rows cols v s₀ s3 p (0 < p.1) (p.1 - 1, p.2) c3 p3 ps3 b3
      (fun hg => ⟨by omega, hprange.2, Or.inr ⟨rfl, Or.inl (by omega)⟩⟩)
  set s4 := if 0 < p.1 then markHotspots mat s3 p (p.1 - 1, p.2) else s3 with hs4
  obtain ⟨c5, b5, m5, p5, ps5, g5, l5⟩ :=
    mark_step mat rows cols v s₀ s4 p (p.1 < rows - 1) (p.1 + 1, p.2) c4 p4 ps4 b4
      (fun hg => ⟨by omega, hprange.2, Or.inr ⟨rfl, Or.inr (by omega)⟩⟩)
  set s5 := if p.1 < rows - 1 then markHotspots mat s4 p (p.1 + 1, p.2) else s4 with hs5
  refine ⟨c5, ?_, by omega⟩
  intro q hq hqs q' hq1 hq2 hq3 hadj'
  by_cases hqp : q = p
  · subst hqp
    rcases hadj' with ⟨he, hd | hd⟩ | ⟨he, hd | hd⟩
    · have hq' : q' = (q.1, q.2 - 1) := Prod.ext_iff.mpr ⟨he.symm, by omega⟩
      rw [hq'] at hq3 ⊢
      exact m5 _ (m4 _ (m3 _ (g2 (by omega) hq3)))
    · have hq' : q' = (q.1, q.2 + 1) := Prod.ext_iff.mpr ⟨he.symm, by omega⟩
      rw [hq'] at hq2 hq3 ⊢
      exact m5 _ (m4 _ (g3 (by omega) hq3))
    · have hq' : q' = (q.1 - 1, q.2) := Prod.ext_iff.mpr ⟨by omega, he.symm⟩
      rw [hq'] at hq3 ⊢
      exact m5 _ (g4 (by omega) hq3)
    · have hq' : q' = (q.1 + 1, q.2) := Prod.ext_iff.mpr ⟨by omega, he.symm⟩
      rw [hq'] at hq1 hq3 ⊢
      exact g5 (by omega) hq3
  · exact b5 q hq hqs hqp q' hq1 hq2 hq3 hadj'

theorem floodLoop_run (mat : List (List Nat)) (rows cols v : Nat) (s₀ : Nat × Nat) :
    ∀ (fuel : Nat) (s : FState),
      FCore mat rows cols v s₀ s →
      Closed mat rows cols v s →
      (rows * cols - s.tested.length) + s.stack.length ≤ fuel →
      FCore mat rows cols v s₀ (floodLoop mat rows cols fuel s) ∧
      Closed mat rows cols v (floodLoop mat rows cols fuel s) ∧
      (floodLoop mat rows cols fuel s).stack = [] := by
  intro fuel
  induction fuel with
  | zero =>
    intro s hcore hclosed hmu
    have hst : s.stack.length = 0 := by omega
    exact ⟨hcore, hclosed, List.length_eq_zero.mp hst⟩
  | succ n ih =>
    intro s hcore hclosed hmu
    rw [floodLoop]
    split
    next heq => exact ⟨hcore, hclosed, heq⟩
    next p rest heq =>
      have hrest_sub : ∀ q ∈ rest, q ∈ s.stack := by
        rw [heq]
        exact fun q hq => List.mem_cons_of_mem p hq
      have hpstack : p ∈ s.stack := by
        rw [heq]
        exact List.mem_cons_self p rest
      have hstk_nodup := hcore.nodupS
      rw [heq] at hstk_nodup
      have hpnotrest : p ∉ rest := (List.nodup_cons.mp hstk_nodup).1
      have hrest_nodup : rest.Nodup := (List.nodup_cons.mp hstk_nodup).2
      have hcore1 : FCore mat rows cols v s₀ { s with stack := rest } :=
        { nodupT := hcore.nodupT, rangeT := hcore.rangeT, valT := hcore.valT,
          seedT := hcore.seedT,
          stackT := fun q hq => hcore.stackT q (hrest_sub q hq),
          nodupS := hrest_nodup,
          reachT := hcore.reachT, mLen := hcore.mLen, mRows := hcore.mRows,
          mOne := hcore.mOne, mBin := hcore.mBin, mCount := hcore.mCount }
      have hp1 : p ∈ ({ s with stack := rest } : FState).tested :=
        hcore.stackT p hpstack
      have hcb1 : ClosedBut mat rows cols v p { s with stack := rest } := by
        intro q hq hqs hqp q' h1 h2 h3 h4
        apply hclosed q hq _ q' h1 h2 h3 h4
        rw [heq]
        intro hmem
        rcases List.mem_cons.mp hmem with ha | hb
        · exact hqp ha
        · exact hqs hb
      obtain ⟨c5, cl5, l5⟩ :=
        floodBody_spec mat rows cols v s₀ { s with stack := rest } p hcore1 hp1 hpnotrest hcb1
      dsimp only at l5
      apply ih _ c5 cl5
      have hle5 : (floodBody mat rows cols p { s with stack := rest }).tested.length ≤
          rows * cols :=
        tested_card_le rows cols _ c5.nodupT c5.rangeT
      have hle : s.tested.length ≤ rows * cols :=
        tested_card_le rows cols _ hcore.nodupT hcore.rangeT
      rw [heq, List.length_cons] at hmu
      omega

theorem mem_eq_of_length_le_one {α : Type} (l : List α) (h : l.length ≤ 1)
    (a b : α) (ha : a ∈ l) (hb : b ∈ l) : a = b := by
  cases l with
  | nil => cases ha
  | cons x t =>
    cases t with
    | nil =>
      rw [List.mem_singleton.mp ha, List.mem_singleton.mp hb]
    | cons y u => simp at h

theorem length_le_one_of_nodup_all_eq {α : Type} (l : List α) (a : α)
    (hnd : l.Nodup) (hall : ∀ x ∈ l, x = a) : l.length ≤ 1 := by
  cases l with
  | nil => simp
  | cons x t =>
    cases t with
    | nil => simp
    | cons y u =>
      exfalso
      have hx : x = a := hall x (List.mem_cons_self _ _)
      have hy : y = a := hall y (List.mem_cons_of_mem x (List.mem_cons_self _ _))
      have : x ∉ y :: u := (List.nodup_cons.mp hnd).1
      exact this (by rw [hx, ← hy]; exact List.mem_cons_self _ _)

/-- The state of the flood fill after `get_neighbours`'s loop finishes,
started from an in-range seed: the invariant holds, the closure is total
and the stack is exhausted (the supplied fuel `rows * cols` dominates the
loop measure). -/
theorem flood_final (mat : List (List Nat)) (rows cols row col : Nat)
    (hr : row < rows) (hc : col < cols) :
    FCore mat rows cols (cellAt mat row col) (row, col)
      (floodLoop mat rows cols (rows * cols)
        ⟨upd2 (zeroMatrix rows cols) row col 1, [(row, col)], [(row, col)]⟩) ∧
    Closed mat rows cols (cellAt mat row col)
      (floodLoop mat rows cols (rows * cols)
        ⟨upd2 (zeroMatrix rows cols) row col 1, [(row, col)], [(row, col)]⟩) ∧
    (floodLoop mat rows cols (rows * cols)
      ⟨upd2 (zeroMatrix rows cols) row col 1, [(row, col)], [(row, col)]⟩).stack = [] := by
  have hzlen : (zeroMatrix rows cols).length = rows := by
    simp [zeroMatrix]
  have hzrow : ((zeroMatrix rows cols).getD row []).length = cols := by
    unfold zeroMatrix
    rw [getD_replicate, if_pos hr, List.length_replicate]
  apply floodLoop_run
  · refine ⟨?_, ?_, ?_, ?_, ?_, ?_, ?_, ?_, ?_, ?_, ?_, ?_⟩
    · simp
    · intro p hp
      rw [List.mem_singleton.mp hp]
      exact ⟨hr, hc⟩
    · intro p hp
      rw [List.mem_singleton.mp hp]
    · exact List.mem_cons_self _ _
    · intro p hp
      exact hp
    · simp
    · intro p hp
      rw [List.mem_singleton.mp hp]
      exact Relation.ReflTransGen.refl
    · rw [upd2_length, hzlen]
    · apply upd2_row_length _ _ _ _ cols (by rw [hzlen]; exact hr)
      intro mr hmr
      rw [List.eq_of_mem_replicate hmr, List.length_replicate]
    · intro i j hi hj
      by_cases hin : (i, j) = (row, col)
      · have hi1 : i = row := congrArg Prod.fst hin
        have hj1 : j = col := congrArg Prod.snd hin
        subst hi1
        subst hj1
        rw [cellAt_upd2_self _ _ _ _ (by rw [hzlen]; exact hr) (by rw [hzrow]; exact hc)]
        simp
      · rw [cellAt_upd2_ne _ _ _ _ _ _ hin, cellAt_zeroMatrix]
        constructor
        · intro h
          omega
        · intro h
          exact absurd (List.mem_singleton.mp h) hin
    · intro i j hi hj
      by_cases hin : (i, j) = (row, col)
      · have hi1 : i = row := congrArg Prod.fst hin
        have hj1 : j = col := congrArg Prod.snd hin
        subst hi1
        subst hj1
        rw [cellAt_upd2_self _ _ _ _ (by rw [hzlen]; exact hr) (by rw [hzrow]; exact hc)]
        exact Or.inr rfl
      · rw [cellAt_upd2_ne _ _ _ _ _ _ hin, cellAt_zeroMatrix]
        exact Or.inl rfl
    · rw [countOnes_upd2 _ _ _ (by rw [hzlen]; exact hr) (by rw [hzrow]; exact hc)
          (cellAt_zeroMatrix rows cols row col),
        countOnes_zeroMatrix]
      simp
  · intro p hp hps
    exact absurd hp hps
  · have h1 : 1 ≤ rows * cols := Nat.mul_pos (by omega) (by omega)
    simp
    omega

/-- **C1.** For an in-range seed: an empty seed cell yields `None`;
otherwise `get_neighbours` yields `None` exactly when the maximal
4-connected region of cells holding the seed's value is the singleton
seed, and a returned matrix is a `rows × cols` 0/1 matrix whose `1`
entries are exactly the cells of that maximal region (seed included). -/
theorem get_neighbours_spec (b : Board) (row col : Nat) (_hw : WF b)
    (hr : row < b.rows) (hc : col < b.cols) :
    (cellAt b.matrix row col = 0 → get_neighbours b row col = none) ∧
    (cellAt b.matrix row col ≠ 0 →
      ((get_neighbours b row col = none ↔
          ∀ q, Reaches b.matrix b.rows b.cols (cellAt b.matrix row col) (row, col) q →
            q = (row, col)) ∧
       (∀ M, get_neighbours b row col = some M →
          M.length = b.rows ∧ (∀ mr ∈ M, mr.length = b.cols) ∧
          ∀ i j, i < b.rows → j < b.cols →
            ((cellAt M i j = 1 ↔
                Reaches b.matrix b.rows b.cols (cellAt b.matrix row col) (row, col) (i, j)) ∧
             (cellAt M i j = 0 ∨ cellAt M i j = 1))))) := by
  obtain ⟨hcoreF, hclosedF, hstkF⟩ := flood_final b.matrix b.rows b.cols row col hr hc
  set sF := floodLoop b.matrix b.rows b.cols (b.rows * b.cols)
    ⟨upd2 (zeroMatrix b.rows b.cols) row col 1, [(row, col)], [(row, col)]⟩ with hsF
  have hiff : ∀ q : Nat × Nat, q ∈ sF.tested ↔
      Reaches b.matrix b.rows b.cols (cellAt b.matrix row col) (row, col) q := by
    intro q
    constructor
    · exact hcoreF.reachT q
    · intro hreach
      induction hreach with
      | refl => exact hcoreF.seedT
      | tail hab hbc ihb =>
        exact hclosedF _ ihb (by rw [hstkF]; exact List.not_mem_nil _) _
          hbc.2.1 hbc.2.2.1 hbc.2.2.2 hbc.1
  have hcount : countOnes sF.marks = sF.tested.length := hcoreF.mCount
  refine ⟨?_, ?_⟩
  · intro h0
    unfold get_neighbours
    rw [if_pos h0]
  · intro hv0
    have hgn' : get_neighbours b row col =
        (if 1 < countOnes sF.marks then some sF.marks else none) := by
      unfold get_neighbours
      rw [if_neg hv0]
    constructor
    · rw [hgn']
      constructor
      · intro hnone
        by_cases hlt : 1 < countOnes sF.marks
        · rw [if_pos hlt] at hnone
          exact absurd hnone (by simp)
        · intro q hreach
          have hql : sF.tested.length ≤ 1 := by omega
          exact mem_eq_of_length_le_one _ hql q (row, col)
            ((hiff q).mpr hreach) hcoreF.seedT
      · intro hsingle
        have hall : ∀ q ∈ sF.tested, q = (row, col) :=
          fun q hq => hsingle q (hcoreF.reachT q hq)
        have hlen : sF.tested.length ≤ 1 :=
          length_le_one_of_nodup_all_eq _ _ hcoreF.nodupT hall
        rw [if_neg (by omega)]
    · intro M hM
      rw [hgn'] at hM
      by_cases hlt : 1 < countOnes sF.marks
      · rw [if_pos hlt] at hM
        have hMe : M = sF.marks := (Option.some.inj hM).symm
        subst hMe
        refine ⟨hcoreF.mLen, hcoreF.mRows, ?_⟩
        intro i j hi hj
        refine ⟨?_, hcoreF.mBin i j hi hj⟩
        rw [hcoreF.mOne i j hi hj]
        exact hiff (i, j)
      · rw [if_neg hlt] at hM
        exact absurd hM (by simp)

/-! ### Conservation of the nonzero cells (C10) -/

theorem map_getD_range (l : List Nat) :
    (List.range l.length).map (fun i => l.getD i 0) = l := by
  induction l with
  | nil => rfl
  | cons a t ih =>
    rw [List.length_cons, List.range_succ_eq_map, List.map_cons, List.getD_cons_zero,
      List.map_map]
    have hcomp : ((fun i => (a :: t).getD i 0) ∘ Nat.succ) = fun i => t.getD i 0 := by
      funext i
      simp [List.getD_cons_succ]
    rw [hcomp, ih]

theorem colsAux_nil_replicate : ∀ (k c : Nat),
    colsAux ([] : List (List Nat)) c k = List.replicate k [] := by
  intro k
  induction k with
  | zero => intro c; rfl
  | succ n ih =>
    intro c
    show colOf [] c :: colsAux ([] : List (List Nat)) (c + 1) n = _
    rw [List.replicate_succ, ih]
    rfl

theorem colsAux_slice_multiset (row : List Nat) (t : List (List Nat)) : ∀ (k c : Nat),
    ((colsAux (row :: t) c k).flatten : Multiset Nat) =
      (↑((List.range' c k).map (fun i => row.getD i 0)) : Multiset Nat) +
        ((colsAux t c k).flatten : Multiset Nat) := by
  intro k
  induction k with
  | zero => intro c; simp [colsAux]
  | succ n ihk =>
    intro c
    have hL : colsAux (row :: t) c (n + 1) =
        (row.getD c 0 :: colOf t c) :: colsAux (row :: t) (c + 1) n := rfl
    have hR : colsAux t c (n + 1) = colOf t c :: colsAux t (c + 1) n := rfl
    rw [hL, hR, List.flatten_cons, List.flatten_cons, List.range'_succ, List.map_cons,
      List.cons_append]
    simp only [← Multiset.coe_add, ← Multiset.cons_coe, ← Multiset.singleton_add]
    rw [ihk (c + 1)]
    abel

theorem flatten_cols_eq (cols : Nat) : ∀ (m : List (List Nat)),
    (∀ row ∈ m, row.length = cols) →
    ((colsOf m cols).flatten : Multiset Nat) = (m.flatten : Multiset Nat) := by
  intro m
  induction m with
  | nil =>
    intro _
    rw [colsOf, colsAux_nil_replicate]
    simp
  | cons row t ih =>
    intro hrows
    have hrow : row.length = cols := hrows row (List.mem_cons_self row t)
    have hslice : (List.range' 0 cols).map (fun i => row.getD i 0) = row := by
      rw [← List.range_eq_range', ← hrow, map_getD_range]
    rw [colsOf, colsAux_slice_multiset row t cols 0, hslice, List.flatten_cons,
      ← Multiset.coe_add]
    congr 1
    exact ih (fun r hr => hrows r (List.mem_cons_of_mem row hr))

theorem nonzeros_eq_cols (m : List (List Nat)) (cols : Nat)
    (hrows : ∀ row ∈ m, row.length = cols) :
    nonzeros m =
      ((((colsOf m cols).map (fun v => v.filter (fun x => decide (0 < x)))).flatten :
        List Nat) : Multiset Nat) := by
  unfold nonzeros
  rw [← List.filter_flatten, ← List.filter_flatten]
  have hperm : (colsOf m cols).flatten.Perm m.flatten :=
    Multiset.coe_eq_coe.mp (flatten_cols_eq cols m hrows)
  exact (Multiset.coe_eq_coe.mpr (hperm.filter (fun x => decide (0 < x)))).symm

theorem filter_pos_replicate_zero (n : Nat) :
    (List.replicate n (0 : Nat)).filter (fun x => decide (0 < x)) = [] := by
  apply List.filter_eq_nil_iff.mpr
  intro a ha
  rw [List.eq_of_mem_replicate ha]
  simp

theorem shiftDownCol_filter (v : List Nat) :
    (shiftDownCol v).filter (fun x => decide (0 < x)) = v.filter (fun x => decide (0 < x)) := by
  rw [shiftDownCol_eq]
  unfold compactCol
  rw [List.filter_append, filter_pos_replicate_zero, List.nil_append]
  apply List.filter_eq_self.mpr
  intro a ha
  exact (List.mem_filter.mp ha).2

theorem colsAux_map_of (m1 m2 : List (List Nat)) (f : List Nat → List Nat) : ∀ (k c : Nat),
    (∀ j, c ≤ j → j < c + k → colOf m2 j = f (colOf m1 j)) →
    colsAux m2 c k = (colsAux m1 c k).map f := by
  intro k
  induction k with
  | zero => intro c _; rfl
  | succ n ih =>
    intro c h
    show colOf m2 c :: colsAux m2 (c + 1) n = f (colOf m1 c) :: (colsAux m1 (c + 1) n).map f
    rw [h c (Nat.le_refl c) (by omega), ih (c + 1) (fun j h1 h2 => h j (by omega) (by omega))]

theorem shift_down_preserves (b : Board) (hw : WF b) :
    WF (shift_down b) ∧ nonzeros (shift_down b).matrix = nonzeros b.matrix := by
  obtain ⟨hrect', hun, hproc⟩ := shiftDownFrom_spec b.cols 0 b.matrix b.rows b.cols hw (by omega)
  have hwf' : WF (shift_down b) := hrect'
  refine ⟨hwf', ?_⟩
  have hcols : colsOf (shift_down b).matrix b.cols =
      (colsOf b.matrix b.cols).map shiftDownCol := by
    apply colsAux_map_of
    intro j h1 h2
    exact hproc j h1 (by omega)
  rw [nonzeros_eq_cols (shift_down b).matrix b.cols hwf'.2,
    nonzeros_eq_cols b.matrix b.cols hw.2, hcols, List.map_map]
  have hfn : ((fun v => v.filter (fun x => decide (0 < x))) ∘ shiftDownCol) =
      (fun v => v.filter (fun x => decide (0 < x))) := by
    funext v
    exact shiftDownCol_filter v

  rw [hfn]

theorem shiftLeftLoop_rect (rows cols : Nat) : ∀ (fuel : Nat) (m : List (List Nat)) (col : Nat),
    Rect m rows cols → Rect (shiftLeftLoop cols fuel m col) rows cols := by
  intro fuel
  induction fuel with
  | zero => intro m col hm; exact hm
  | succ n ih =>
    intro m col hm
    rw [shiftLeftLoop]
    by_cases hcol : col < cols - 1
    · rw [if_pos hcol]
      cases hb : (isempty m col && !isempty m (col + 1)) with
      | true =>
        rw [if_pos rfl]
        exact ih (copyleft m col) 0 (rect_copyleft m col rows cols hm)
      | false =>
        rw [if_neg (by simp)]
        exact ih m (col + 1) hm
    · rw [if_neg hcol]
      exact hm

theorem filter_cols_flatten (cs : List (List Nat)) :
    ((cs.filter colNonempty).map (fun v => v.filter (fun x => decide (0 < x)))).flatten =
      (cs.map (fun v => v.filter (fun x => decide (0 < x)))).flatten := by
  induction cs with
  | nil => rfl
  | cons v t ih =>
    cases hv : colNonempty v with
    | true =>
      rw [List.filter_cons, if_pos hv, List.map_cons, List.map_cons, List.flatten_cons,
        List.flatten_cons, ih]
    | false =>
      have hempty : v.filter (fun x => decide (0 < x)) = [] := by
        apply List.filter_eq_nil_iff.mpr
        intro a ha
        intro hpa
        have : colNonempty v = true := by
          unfold colNonempty
          rw [List.any_eq_true]
          exact ⟨a, ha, hpa⟩
        rw [this] at hv
        cases hv
      rw [List.filter_cons, if_neg (by simp [hv]), List.map_cons, List.flatten_cons, hempty,
        List.nil_append, ih]

theorem shift_left_preserves (b : Board) (hw : WF b) :
    WF (shift_left b) ∧ nonzeros (shift_left b).matrix = nonzeros b.matrix := by
  have hwf' : WF (shift_left b) := shiftLeftLoop_rect b.rows b.cols _ b.matrix 0 hw
  refine ⟨hwf', ?_⟩
  have hcols := shift_left_compacts b hw
  rw [nonzeros_eq_cols (shift_left b).matrix b.cols hwf'.2,
    nonzeros_eq_cols b.matrix b.cols hw.2, hcols]
  rw [List.map_append, List.flatten_append]
  have hzero : ((List.replicate (b.cols - ((colsOf b.matrix b.cols).filter colNonempty).length)
      (List.replicate b.rows 0)).map (fun v => v.filter (fun x => decide (0 < x)))).flatten =
      ([] : List Nat) := by
    rw [List.map_replicate, filter_pos_replicate_zero]
    simp
  rw [hzero, List.append_nil, filter_cols_flatten]

/-- Witness for `get_neighbours_spec` on the 2×2 board `[[5,9],[5,9]]`
with seed `(0,0)` (a two-cell region of `5`s). -/
theorem get_neighbours_spec_witness :
    WF bTwin ∧
    ((cellAt bTwin.matrix 0 0 = 0 → get_neighbours bTwin 0 0 = none) ∧
     (cellAt bTwin.matrix 0 0 ≠ 0 →
       ((get_neighbours bTwin 0 0 = none ↔
           ∀ q, Reaches bTwin.matrix bTwin.rows bTwin.cols (cellAt bTwin.matrix 0 0) (0, 0) q →
             q = (0, 0)) ∧
        (∀ M, get_neighbours bTwin 0 0 = some M →
           M.length = bTwin.rows ∧ (∀ mr ∈ M, mr.length = bTwin.cols) ∧
           ∀ i j, i < bTwin.rows → j < bTwin.cols →
             ((cellAt M i j = 1 ↔
                 Reaches bTwin.matrix bTwin.rows bTwin.cols (cellAt bTwin.matrix 0 0) (0, 0)
                   (i, j)) ∧
              (cellAt M i j = 0 ∨ cellAt M i j = 1)))))) :=
  ⟨by decide, get_neighbours_spec bTwin 0 0 (by decide) (by decide) (by decide)⟩

theorem gn_some_inrange (b : Board) (row col : Nat) (M : List (List Nat))
    (hw : WF b) (hM : get_neighbours b row col = some M) :
    row < b.rows ∧ col < b.cols ∧ 0 < cellAt b.matrix row col := by
  have h0 : cellAt b.matrix row col ≠ 0 := by
    intro h0
    unfold get_neighbours at hM
    rw [if_pos h0] at hM
    exact absurd hM (by simp)
  have hr : row < b.rows := by
    by_contra hr
    apply h0
    unfold cellAt
    have hd : b.matrix.getD row [] = [] :=
      List.getD_eq_default _ _ (by rw [hw.1]; omega)
    rw [hd]
    rfl
  have hc : col < b.cols := by
    by_contra hc
    apply h0
    unfold cellAt
    have hmem : b.matrix.getD row [] ∈ b.matrix := by
      rw [List.getD_eq_getElem b.matrix [] (by rw [hw.1]; exact hr)]
      exact List.getElem_mem _
    exact List.getD_eq_default _ _ (by rw [hw.2 _ hmem]; omega)
  exact ⟨hr, hc, Nat.pos_of_ne_zero h0⟩

theorem gn_marks (b : Board) (row col : Nat) (M : List (List Nat))
    (hr : row < b.rows) (hc : col < b.cols)
    (hM : get_neighbours b row col = some M) :
    M.length = b.rows ∧ (∀ mr ∈ M, mr.length = b.cols) ∧
    (∀ i j, i < b.rows → j < b.cols → cellAt M i j = 0 ∨ cellAt M i j = 1) ∧
    (∀ i j, i < b.rows → j < b.cols → cellAt M i j = 1 →
      cellAt b.matrix i j = cellAt b.matrix row col) := by
  obtain ⟨hcore, -, -⟩ := flood_final b.matrix b.rows b.cols row col hr hc
  have h0 : ¬ cellAt b.matrix row col = 0 := by
    intro h0
    unfold get_neighbours at hM
    rw [if_pos h0] at hM
    exact absurd hM (by simp)
  set sF := floodLoop b.matrix b.rows b.cols (b.rows * b.cols)
    ⟨upd2 (zeroMatrix b.rows b.cols) row col 1, [(row, col)], [(row, col)]⟩ with hsF
  have hgn' : get_neighbours b row col =
      (if 1 < countOnes sF.marks then some sF.marks else none) := by
    unfold get_neighbours
    rw [if_neg h0]
  rw [hgn'] at hM
  by_cases hlt : 1 < countOnes sF.marks
  · rw [if_pos hlt] at hM
    have hMe : M = sF.marks := (Option.some.inj hM).symm
    subst hMe
    refine ⟨hcore.mLen, hcore.mRows, hcore.mBin, ?_⟩
    intro i j hi hj h1
    exact hcore.valT (i, j) ((hcore.mOne i j hi hj).mp h1)
  · rw [if_neg hlt] at hM
    exact absurd hM (by simp)

theorem remove_row_multiset (v : Nat) (hv : 0 < v) : ∀ (row mrow : List Nat),
    (∀ c, c < row.length → mrow.getD c 0 = 0 ∨ mrow.getD c 0 = 1) →
    (∀ c, c < row.length → mrow.getD c 0 = 1 → row.getD c 0 = v) →
    row.length = mrow.length →
    (↑(row.filter (fun x => decide (0 < x))) : Multiset Nat) =
      (↑((List.zipWith (fun x m => if m = 1 then 0 else x) row mrow).filter
        (fun x => decide (0 < x))) : Multiset Nat) +
        Multiset.replicate (mrow.count 1) v := by
  intro row
  induction row with
  | nil =>
    intro mrow _ _ hlen
    have hm : mrow = [] := List.length_eq_zero.mp (by simpa using hlen.symm)
    subst hm
    simp
  | cons x xs ih =>
    intro mrow hbin hval hlen
    cases mrow with
    | nil => simp at hlen
    | cons m ms =>
      have hbin0 : m = 0 ∨ m = 1 := hbin 0 (by simp only [List.length_cons]; omega)
      have hbins : ∀ c, c < xs.length → ms.getD c 0 = 0 ∨ ms.getD c 0 = 1 :=
        fun c hcl => hbin (c + 1) (by simp only [List.length_cons]; omega)
      have hvals : ∀ c, c < xs.length → ms.getD c 0 = 1 → xs.getD c 0 = v :=
        fun c hcl h1 => hval (c + 1) (by simp only [List.length_cons]; omega) h1
      have hlens : xs.length = ms.length := by simpa using hlen
      have ihm := ih ms hbins hvals hlens
      rcases hbin0 with hm0 | hm1
      · subst hm0
        rw [List.zipWith_cons_cons]
        rw [if_neg (show ¬(0 : Nat) = 1 by decide), List.filter_cons, List.filter_cons]
        have hcnt : (0 :: ms).count 1 = ms.count 1 := by simp
        rw [hcnt]
        by_cases hx : 0 < x
        · rw [if_pos (by simpa), if_pos (by simpa)]
          rw [← Multiset.cons_coe, ← Multiset.cons_coe, ihm, Multiset.cons_add]
        · rw [if_neg (by simpa using hx), if_neg (by simpa using hx)]
          exact ihm
      · subst hm1
        have hx : x = v := hval 0 (by simp only [List.length_cons]; omega) rfl
        rw [List.zipWith_cons_cons]
        rw [if_pos rfl, List.filter_cons, List.filter_cons]
        rw [if_pos (show decide (0 < x) = true by rw [hx]; simpa using hv),
          if_neg (by simp)]
        have hcnt : (1 :: ms).count 1 = ms.count 1 + 1 := by simp
        rw [hcnt, ← Multiset.cons_coe, ihm, Multiset.replicate_succ, hx]
        simp only [← Multiset.singleton_add]
        abel

theorem remove_matrix_multiset (v : Nat) (hv : 0 < v) : ∀ (m marks : List (List Nat)),
    m.length = marks.length →
    (∀ r, r < m.length → (m.getD r []).length = (marks.getD r []).length) →
    (∀ i j, i < m.length → j < (m.getD i []).length →
        cellAt marks i j = 0 ∨ cellAt marks i j = 1) →
    (∀ i j, i < m.length → j < (m.getD i []).length →
        cellAt marks i j = 1 → cellAt m i j = v) →
    nonzeros m = nonzeros (remove_matches m marks) + Multiset.replicate (countOnes marks) v := by
  intro m
  induction m with
  | nil =>
    intro marks hlen _ _ _
    have hm : marks = [] := List.length_eq_zero.mp (by simpa using hlen.symm)
    subst hm
    simp [nonzeros, remove_matches, countOnes]
  | cons row t ih =>
    intro marks hlen hrow hbin hval
    cases marks with
    | nil => simp at hlen
    | cons mrow mt =>
      have hlen' : t.length = mt.length := by simpa using hlen
      have hrow0 : row.length = mrow.length := hrow 0 (by simp only [List.length_cons]; omega)
      have hrow' : ∀ r, r < t.length → (t.getD r []).length = (mt.getD r []).length :=
        fun r hr => hrow (r + 1) (by simp only [List.length_cons]; omega)
      have hbin' : ∀ i j, i < t.length → j < (t.getD i []).length →
          cellAt mt i j = 0 ∨ cellAt mt i j = 1 :=
        fun i j hi hj => hbin (i + 1) j (by simp only [List.length_cons]; omega) hj
      have hval' : ∀ i j, i < t.length → j < (t.getD i []).length →
          cellAt mt i j = 1 → cellAt t i j = v :=
        fun i j hi hj h1 => hval (i + 1) j (by simp only [List.length_cons]; omega) hj h1
      have hbin0 : ∀ c, c < row.length → mrow.getD c 0 = 0 ∨ mrow.getD c 0 = 1 :=
        fun c hcl => hbin 0 c (by simp only [List.length_cons]; omega) hcl
      have hval0 : ∀ c, c < row.length → mrow.getD c 0 = 1 → row.getD c 0 = v :=
        fun c hcl h1 => hval 0 c (by simp only [List.length_cons]; omega) hcl h1
      have hrowm := remove_row_multiset v hv row mrow hbin0 hval0 hrow0
      have ihm := ih mt hlen' hrow' hbin' hval'
      have hrm : remove_matches (row :: t) (mrow :: mt) =
          (List.zipWith (fun x m => if m = 1 then 0 else x) row mrow) ::
            remove_matches t mt := rfl
      have hnz1 : nonzeros (row :: t) =
          (↑(row.filter (fun x => decide (0 < x))) : Multiset Nat) + nonzeros t := by
        unfold nonzeros
        rw [List.map_cons, List.flatten_cons, ← Multiset.coe_add]
      have hnz2 : nonzeros ((List.zipWith (fun x m => if m = 1 then 0 else x) row mrow) ::
            remove_matches t mt) =
          (↑((List.zipWith (fun x m => if m = 1 then 0 else x) row mrow).filter
            (fun x => decide (0 < x))) : Multiset Nat) + nonzeros (remove_matches t mt) := by
        unfold nonzeros
        rw [List.map_cons, List.flatten_cons, ← Multiset.coe_add]
      rw [hnz1, hrm, hnz2, countOnes_cons, Multiset.replicate_add, hrowm, ihm]
      abel

theorem rect_remove_matches (m marks : List (List Nat)) (rows cols : Nat)
    (hm : Rect m rows cols) (hml : marks.length = rows)
    (hmr : ∀ mr ∈ marks, mr.length = cols) :
    Rect (remove_matches m marks) rows cols := by
  have hlen : (remove_matches m marks).length = rows := by
    rw [remove_matches, List.length_zipWith, hm.1, hml, Nat.min_self]
  refine ⟨hlen, ?_⟩
  intro r hr
  obtain ⟨i, hi, hri⟩ := List.mem_iff_getElem.mp hr
  rw [← hri]
  simp only [remove_matches] at hi ⊢
  rw [List.getElem_zipWith, List.length_zipWith, hm.2 _ (List.getElem_mem _),
    hmr _ (List.getElem_mem _), Nat.min_self]

/-- **C10.** Both compaction passes keep the board's dimensions and only
relocate the nonzero cells (the multiset of nonzero values is unchanged);
a commit whose match query returns a set `M` therefore removes exactly the
marked cells: the pre-call multiset of nonzero values equals the post-call
multiset plus `countOnes M` copies of the selected cell's value. -/
theorem compaction_preserves (b : Board) (hw : WF b) (row col : Nat) :
    ((shift_down b).rows = b.rows ∧ (shift_down b).cols = b.cols ∧
      WF (shift_down b) ∧ nonzeros (shift_down b).matrix = nonzeros b.matrix) ∧
    ((shift_left b).rows = b.rows ∧ (shift_left b).cols = b.cols ∧
      WF (shift_left b) ∧ nonzeros (shift_left b).matrix = nonzeros b.matrix) ∧
    (∀ M, get_neighbours b row col = some M →
      nonzeros b.matrix =
        nonzeros (select_blocks b row col).matrix +
          Multiset.replicate (countOnes M) (cellAt b.matrix row col)) := by
  obtain ⟨hdwf, hdnz⟩ := shift_down_preserves b hw
  obtain ⟨hlwf, hlnz⟩ := shift_left_preserves b hw
  refine ⟨⟨rfl, rfl, hdwf, hdnz⟩, ⟨rfl, rfl, hlwf, hlnz⟩, ?_⟩
  intro M hM
  obtain ⟨hr, hc, hv⟩ := gn_some_inrange b row col M hw hM
  obtain ⟨hMlen, hMrows, hMbin, hMval⟩ := gn_marks b row col M hr hc hM
  have hsel := select_blocks_of_some b row col M hM
  have hwf' : WF ({ b with score := b.score + calc_score M,
                           matrix := remove_matches b.matrix M } : Board) := by
    unfold WF
    exact rect_remove_matches b.matrix M b.rows b.cols hw hMlen hMrows
  obtain ⟨hdwf', hdnz'⟩ := shift_down_preserves _ hwf'
  obtain ⟨hlwf', hlnz'⟩ := shift_left_preserves _ hdwf'
  have hacct : nonzeros b.matrix =
      nonzeros (remove_matches b.matrix M) +
        Multiset.replicate (countOnes M) (cellAt b.matrix row col) := by
    apply remove_matrix_multiset (cellAt b.matrix row col) hv b.matrix M
    · have h1 := hw.1
      have h2 := hMlen
      omega
    · intro r hrl
      have hmm : b.matrix.getD r [] ∈ b.matrix := by
        rw [List.getD_eq_getElem b.matrix [] hrl]
        exact List.getElem_mem _
      have hMm : M.getD r [] ∈ M := by
        have h2 := hMlen
        have h1 := hw.1
        rw [List.getD_eq_getElem M [] (by omega)]
        exact List.getElem_mem _
      rw [hw.2 _ hmm, hMrows _ hMm]
    · intro i j hi hj
      have hmm : b.matrix.getD i [] ∈ b.matrix := by
        rw [List.getD_eq_getElem b.matrix [] hi]
        exact List.getElem_mem _
      exact hMbin i j (by rw [← hw.1]; exact hi) (by rw [← hw.2 _ hmm]; exact hj)
    · intro i j hi hj
      have hmm : b.matrix.getD i [] ∈ b.matrix := by
        rw [List.getD_eq_getElem b.matrix [] hi]
        exact List.getElem_mem _
      exact hMval i j (by rw [← hw.1]; exact hi) (by rw [← hw.2 _ hmm]; exact hj)
  rw [hsel, hlnz', hdnz']
  exact hacct

/-- Witness for `compaction_preserves` on the 2×2 board `[[5,9],[5,9]]`
selecting the two-cell column of `5`s at `(0,0)`. -/
theorem compaction_preserves_witness :
    WF bTwin ∧
    ((((shift_down bTwin).rows = bTwin.rows ∧ (shift_down bTwin).cols = bTwin.cols ∧
        WF (shift_down bTwin) ∧ nonzeros (shift_down bTwin).matrix = nonzeros bTwin.matrix) ∧
      ((shift_left bTwin).rows = bTwin.rows ∧ (shift_left bTwin).cols = bTwin.cols ∧
        WF (shift_left bTwin) ∧ nonzeros (shift_left bTwin).matrix = nonzeros bTwin.matrix) ∧
      (∀ M, get_neighbours bTwin 0 0 = some M →
        nonzeros bTwin.matrix =
          nonzeros (select_blocks bTwin 0 0).matrix +
            Multiset.replicate (countOnes M) (cellAt bTwin.matrix 0 0)))) :=
  ⟨by decide, compaction_preserves bTwin (by decide) 0 0⟩

end SameGame
